import Mathlib

/-!
Verification of the course-module extraction engine (`downloadAndUnzip` and
`ensureFolderExists` in `src/main.ts`) against its natural-language
specification.  The TypeScript is shallowly embedded: the vault is an
association list from paths to entities, the JavaScript string operations
used by the source are reimplemented character-exactly, and the
host-filesystem calls (`createFolder`, `createBinary`) are parameters so
that both the deterministic model and failure injections can be studied.
-/

/-! ## JavaScript string operations used by the source -/

/-- `c` with backslash mapped to slash; one character of
`path.replace(/\\/g, '/')`. -/
def toSlash (c : Char) : Char := if c = '\\' then '/' else c

/-- Worker for `replace(/\/+/g, '/')`: the flag records whether the last
emitted character was a slash, in which case further slashes are dropped. -/
def collapseAux : Bool → List Char → List Char
  | _, [] => []
  | prevSlash, c :: rest =>
    if c = '/' then
      if prevSlash then collapseAux true rest
      else '/' :: collapseAux true rest
    else c :: collapseAux false rest

/-- `path.replace(/\/+/g, '/')`: collapse every run of slashes to one. -/
def collapseSlashes (l : List Char) : List Char := collapseAux false l

/-- `path.split('/')` at the character level; never returns `[]`. -/
def splitSlash : List Char → List (List Char)
  | [] => [[]]
  | c :: rest =>
    match splitSlash rest with
    | [] => [[]]
    | s :: ss => if c = '/' then [] :: s :: ss else (c :: s) :: ss

/-- `fullDestPath.replace(/\\/g, '/').replace(/\/+/g, '/')` (main.ts:365). -/
def jsNormalizeSeps (p : String) : String :=
  ⟨collapseSlashes (p.data.map toSlash)⟩

/-- `path.split('/')` returning strings. -/
def jsSplit (p : String) : List String := (splitSlash p.data).map (fun l => ⟨l⟩)

/-- `s.startsWith(pre)`. -/
def jsStartsWith (s pre : String) : Bool := pre.data.isPrefixOf s.data

/-- `s.endsWith(suf)`. -/
def jsEndsWith (s suf : String) : Bool := suf.data.isSuffixOf s.data

/-- `s.substring(1)`. -/
def jsDropFirst (s : String) : String := ⟨s.data.drop 1⟩

/-- `s.slice(0, -1)`. -/
def jsDropLastChar (s : String) : String := ⟨s.data.dropLast⟩

/-- `path.replace(/^\/|\/$/g, '')` (main.ts:256): remove one leading and one
trailing slash. -/
def jsStripOuterSlashes (p : String) : String :=
  let p1 := if jsStartsWith p "/" then jsDropFirst p else p
  if jsEndsWith p1 "/" then jsDropLastChar p1 else p1

/-- Index of the last `'/'` in a character list, if any
(`s.lastIndexOf('/')`). -/
def lastSlashPos : List Char → Option Nat
  | [] => none
  | c :: rest =>
    match lastSlashPos rest with
    | some i => some (i + 1)
    | none => if c = '/' then some 0 else none

/-- `lastSlashIndex > 0 ? s.substring(0, i) : (lastSlashIndex === 0 ? '/' : '')`
(main.ts:384-385). -/
def parentOf (p : String) : String :=
  match lastSlashPos p.data with
  | none => ""
  | some 0 => "/"
  | some i => ⟨p.data.take i⟩

/-- `s.replace(pat, rep)` with string `pat`: replace the first occurrence. -/
def replaceFirstL (pat rep : List Char) : List Char → List Char
  | [] => []
  | c :: rest =>
    if pat.isPrefixOf (c :: rest) then rep ++ (c :: rest).drop pat.length
    else c :: replaceFirstL pat rep rest

/-- `s.replace(pat, rep)` on strings. -/
def replaceFirstStr (s pat rep : String) : String :=
  ⟨replaceFirstL pat.data rep.data s.data⟩

/-- `pat` occurs as a contiguous sublist of the second argument. -/
def isInfixOfL (pat : List Char) : List Char → Bool
  | [] => pat.isPrefixOf []
  | c :: rest => pat.isPrefixOf (c :: rest) || isInfixOfL pat rest

/-- `s.includes(pat)`. -/
def containsStr (s pat : String) : Bool := isInfixOfL pat.data s.data

/-- `Set.has` on a list of strings. -/
def memStr (p : String) : List String → Bool
  | [] => false
  | q :: rest => p = q || memStr p rest

/-! ## The vault -/

/-- What occupies a vault path: a `TFile` with its byte content, or a
`TFolder`. -/
inductive Entity where
  | file (data : List Nat)
  | folder
deriving DecidableEq, Repr

/-- The destination tree: an association list from normalized paths to
entities; the first binding of a path wins (`getAbstractFileByPath`). -/
abbrev Vault := List (String × Entity)

/-- `app.vault.getAbstractFileByPath(p)`. -/
def lookupPath (v : Vault) (p : String) : Option Entity :=
  match v with
  | [] => none
  | (q, e) :: rest => if q = p then some e else lookupPath rest p

/-- Result of `vault.createBinary`, split the way main.ts:430-439 splits the
caught error on its message. -/
inductive CreateFileResult where
  | ok
  | alreadyExistsError
  | otherError
deriving DecidableEq, Repr

/-- The host-filesystem calls the engine performs.  `createFolder` returns
the post-call vault and whether the call succeeded; `createBinary` likewise
with the three-way error split of main.ts:430-439. -/
structure FsOps where
  createFolder : String → Vault → Vault × Bool
  createBinary : String → List Nat → Vault → Vault × CreateFileResult

/-- The deterministic host model: creation always succeeds and records the
new entity. -/
def detCreateFolder (p : String) (v : Vault) : Vault × Bool :=
  ((p, Entity.folder) :: v, true)

/-- Deterministic `createBinary`: stores the bytes at the requested path. -/
def detCreateBinary (p : String) (d : List Nat) (v : Vault) :
    Vault × CreateFileResult :=
  ((p, Entity.file d) :: v, CreateFileResult.ok)

/-- The deterministic host. -/
def detOps : FsOps := ⟨detCreateFolder, detCreateBinary⟩

/-! ## ensureFolderExists (main.ts:249-296) -/

/-- `ensureFolderExists(path)`: returns the updated vault and `some` handle
path on success (`"/"` for the vault root), `none` on failure.  Mirrors
main.ts:249-296 including the re-check after a failed creation attempt. -/
def ensureFolderExists (create : String → Vault → Vault × Bool)
    (s : Vault) (path : String) : Vault × Option String :=
  if path = "/" ∨ path = "" then (s, some "/")
  else if jsStripOuterSlashes path = "" then (s, some "/")
  else
    match lookupPath s (jsStripOuterSlashes path) with
    | some Entity.folder => (s, some (jsStripOuterSlashes path))
    | some (Entity.file _) => (s, none)
    | none =>
      match create (jsStripOuterSlashes path) s with
      | (s', true) => (s', some (jsStripOuterSlashes path))
      | (s', false) =>
        match lookupPath s' (jsStripOuterSlashes path) with
        | some Entity.folder => (s', some (jsStripOuterSlashes path))
        | _ => (s', none)

/-! ## Entries and the per-entry pipeline (main.ts:346-443) -/

/-- One record of `zip.files`: its key, `zipEntry.dir`, and the bytes a file
entry yields. -/
structure ZEntry where
  relativePath : String
  dir : Bool
  data : List Nat
deriving DecidableEq, Repr

/-- The metadata/empty filter of main.ts:354-355:
`relativePath.startsWith('__MACOSX/') || fileName === '.DS_Store' || !relativePath`. -/
def isIgnored (relativePath : String) : Bool :=
  jsStartsWith relativePath "__MACOSX/" ||
    (jsSplit relativePath).getLast? = some ".DS_Store" ||
    relativePath = ""

/-- main.ts:364-365: the full destination path and its normalization. -/
def resolveDest (cleanTarget rel : String) : String :=
  jsNormalizeSeps (if cleanTarget ≠ "" then cleanTarget ++ "/" ++ rel else rel)

/-- The normalized destination path of an entry. -/
def destPathOf (cleanTarget : String) (e : ZEntry) : String :=
  resolveDest cleanTarget e.relativePath

/-- main.ts:370: trailing slash stripped off a directory entry's path. -/
def dirPathOf (cleanTarget : String) (e : ZEntry) : String :=
  let ndp := destPathOf cleanTarget e
  if jsEndsWith ndp "/" then jsDropLastChar ndp else ndp

/-- main.ts:402: leading slash stripped before `getAbstractFileByPath`. -/
def pathToCheckOf (ndp : String) : String :=
  if jsStartsWith ndp "/" then jsDropFirst ndp else ndp

/-- How the loop disposed of one entry. -/
inductive EntryOutcome where
  | ignored
  | dirEnsured
  | dirNoop
  | dirFailed
  | parentFailed
  | rootSkip
  | skippedExisting
  | writeConflict
  | written
  | writeSkippedExists
  | writeFailed
deriving DecidableEq, Repr

/-- Reason attached to a reported warning. -/
inductive WarnReason where
  | directoryConflict
  | writeConflict
  | writeError
deriving DecidableEq, Repr

/-- The loop state of main.ts:349-350: the vault, `folderPathsCreated`,
`fileCount`, and the warnings reported so far. -/
structure RunState where
  vault : Vault
  created : List String
  fileCount : Nat
  warnings : List (String × WarnReason)
deriving DecidableEq, Repr

/-- Result of processing one entry: the new state, the entry's outcome, and
the paths passed to `ensureFolderExists` while processing it. -/
structure StepRes where
  state : RunState
  outcome : EntryOutcome
  ensureCalls : List String
deriving DecidableEq, Repr

/-- How the writer (main.ts:399-441) disposed of a file entry. -/
inductive WriteOutcome where
  | rootSkip
  | skippedExisting
  | writeConflict
  | written
  | writeSkippedExists
  | writeFailed
deriving DecidableEq, Repr

/-- The conflict-aware writer, main.ts:399-441: existence check at the
destination, then skip / conflict / create. -/
def writeEntryFile (ops : FsOps) (v : Vault) (ndp : String)
    (dat : List Nat) : Vault × WriteOutcome :=
  let pathToCheck := pathToCheckOf ndp
  if pathToCheck = "" ∧ ndp = "/" then (v, WriteOutcome.rootSkip)
  else
    let existingItem := if pathToCheck ≠ "" then lookupPath v pathToCheck else none
    match existingItem with
    | some (Entity.file _) => (v, WriteOutcome.skippedExisting)
    | some Entity.folder => (v, WriteOutcome.writeConflict)
    | none =>
      match ops.createBinary ndp dat v with
      | (v', CreateFileResult.ok) => (v', WriteOutcome.written)
      | (v', CreateFileResult.alreadyExistsError) =>
        (v', WriteOutcome.writeSkippedExists)
      | (v', CreateFileResult.otherError) => (v', WriteOutcome.writeFailed)

/-- Book-keeping around the writer: count a successful write, report a
conflict or write error (main.ts:413-440). -/
def finishWrite (ops : FsOps) (st : RunState) (ndp : String) (dat : List Nat)
    (calls : List String) : StepRes :=
  match writeEntryFile ops st.vault ndp dat with
  | (v', WriteOutcome.written) =>
    ⟨{ st with vault := v', fileCount := st.fileCount + 1 },
      EntryOutcome.written, calls⟩
  | (v', WriteOutcome.writeConflict) =>
    let st' := { st with vault := v', warnings := st.warnings ++ [(ndp, WarnReason.writeConflict)] }
    ⟨st', EntryOutcome.writeConflict, calls⟩
  | (v', WriteOutcome.writeFailed) =>
    let st' := { st with vault := v', warnings := st.warnings ++ [(ndp, WarnReason.writeError)] }
    ⟨st', EntryOutcome.writeFailed, calls⟩
  | (v', WriteOutcome.rootSkip) => ⟨{ st with vault := v' }, EntryOutcome.rootSkip, calls⟩
  | (v', WriteOutcome.skippedExisting) => ⟨{ st with vault := v' }, EntryOutcome.skippedExisting, calls⟩
  | (v', WriteOutcome.writeSkippedExists) => ⟨{ st with vault := v' }, EntryOutcome.writeSkippedExists, calls⟩

/-- One iteration of the `for (const relativePath in zip.files)` loop
(main.ts:352-443). -/
def processEntry (ops : FsOps) (cleanTarget : String) (st : RunState)
    (e : ZEntry) : StepRes :=
  if isIgnored e.relativePath then ⟨st, EntryOutcome.ignored, []⟩
  else
    let ndp := destPathOf cleanTarget e
    if e.dir then
      let dirPath := dirPathOf cleanTarget e
      if dirPath ≠ "" ∧ ¬ memStr dirPath st.created then
        match ensureFolderExists ops.createFolder st.vault dirPath with
        | (v', some _) =>
          ⟨{ st with vault := v', created := dirPath :: st.created },
            EntryOutcome.dirEnsured, [dirPath]⟩
        | (v', none) =>
          let st' := { st with vault := v', warnings := st.warnings ++ [(dirPath, WarnReason.directoryConflict)] }
          ⟨st', EntryOutcome.dirFailed, [dirPath]⟩
      else ⟨st, EntryOutcome.dirNoop, []⟩
    else
      let parentPath := parentOf ndp
      if parentPath ≠ "" ∧ parentPath ≠ cleanTarget ∧
          ¬ memStr parentPath st.created then
        match ensureFolderExists ops.createFolder st.vault parentPath with
        | (v', some _) =>
          finishWrite ops
            { st with vault := v', created := parentPath :: st.created }
            ndp e.data [parentPath]
        | (v', none) =>
          let st' := { st with vault := v', warnings := st.warnings ++ [(parentPath, WarnReason.directoryConflict)] }
          ⟨st', EntryOutcome.parentFailed, [parentPath]⟩
      else finishWrite ops st ndp e.data []

/-- The whole loop: the final state plus the outcome recorded for each
entry, in decoder order. -/
def runEntries (ops : FsOps) (cleanTarget : String) :
    List ZEntry → RunState → RunState × List (String × EntryOutcome)
  | [], st => (st, [])
  | e :: rest, st =>
    let r := processEntry ops cleanTarget st e
    let rr := runEntries ops cleanTarget rest r.state
    (rr.1, (e.relativePath, r.outcome) :: rr.2)

/-- main.ts:348-350: a fresh `fileCount`/`folderPathsCreated` per extraction
call, then the loop. -/
def extractArchive (ops : FsOps) (cleanTarget : String) (entries : List ZEntry)
    (v : Vault) : RunState × List (String × EntryOutcome) :=
  runEntries ops cleanTarget entries ⟨v, [], 0, []⟩

/-! ## The unzip phase and the full command (main.ts:308-458) -/

/-- Decode failure of `JSZip.loadAsync`. -/
inductive ArchiveFormatError where
  | invalidArchive
deriving DecidableEq, Repr

/-- Terminal result of the unzip phase. -/
inductive UnzipOutcome where
  | aborted (e : ArchiveFormatError)
  | completed (fileCount : Nat) (warnings : List (String × WarnReason))
deriving DecidableEq, Repr

/-- main.ts:346-457: decode the buffer, abort on failure, otherwise run the
loop over all decoded entries. -/
def unzipAndWrite (decode : List Nat → Except ArchiveFormatError (List ZEntry))
    (ops : FsOps) (cleanTarget : String) (zipData : List Nat) (v : Vault) :
    Vault × UnzipOutcome :=
  match decode zipData with
  | Except.error e => (v, UnzipOutcome.aborted e)
  | Except.ok entries =>
    let r := extractArchive ops cleanTarget entries v
    (r.1.vault, UnzipOutcome.completed r.1.fileCount r.1.warnings)

/-- External collaborators of `downloadAndUnzip`: the fetch call and the
archive decoder. -/
structure PluginDeps where
  fetch : String → Except String (List Nat)
  decode : List Nat → Except ArchiveFormatError (List ZEntry)

/-- Terminal outcome of one `downloadAndUnzip` invocation. -/
inductive DlOutcome where
  | invalidUrl
  | targetFolderFailed
  | downloadFailed (msg : String)
  | unzipAborted (e : ArchiveFormatError)
  | completed (fileCount : Nat)
deriving DecidableEq, Repr

/-- Observable result of `downloadAndUnzip`: final vault, URLs requested,
paths passed to `ensureFolderExists` from the top level, and the outcome. -/
structure DlResult where
  vault : Vault
  fetchedUrls : List String
  ensuredPaths : List String
  outcome : DlOutcome
deriving DecidableEq, Repr

/-- main.ts:314-317: the Dropbox URL rewriting. -/
def dropboxFix (url : String) : String :=
  let u := replaceFirstStr url "www.dropbox.com" "dl.dropboxusercontent.com"
  if containsStr u "dropbox.com" ∧ ¬ containsStr u "dl=1" then
    if containsStr u "?" then u ++ "&dl=1" else u ++ "?dl=1"
  else u

/-- `downloadAndUnzip(url)` (main.ts:308-458): URL guard, target-folder
materialization, download, then the unzip phase. -/
def downloadAndUnzip (deps : PluginDeps) (ops : FsOps)
    (targetFolderSetting : String) (v : Vault) (url : String) : DlResult :=
  if ¬ jsStartsWith url "http://" ∧ ¬ jsStartsWith url "https://" then
    ⟨v, [], [], DlOutcome.invalidUrl⟩
  else
    let url1 := dropboxFix url
    match ensureFolderExists ops.createFolder v targetFolderSetting with
    | (v', none) => ⟨v', [], [targetFolderSetting], DlOutcome.targetFolderFailed⟩
    | (v', some tfPath) =>
      let cleanTarget := if tfPath = "/" then "" else tfPath
      match deps.fetch url1 with
      | Except.error msg =>
        ⟨v', [url1], [targetFolderSetting], DlOutcome.downloadFailed msg⟩
      | Except.ok zipData =>
        match unzipAndWrite deps.decode ops cleanTarget zipData v' with
        | (v'', UnzipOutcome.aborted e) =>
          ⟨v'', [url1], [targetFolderSetting], DlOutcome.unzipAborted e⟩
        | (v'', UnzipOutcome.completed n _) =>
          ⟨v'', [url1], [targetFolderSetting], DlOutcome.completed n⟩

/-! ## Path interpretation and sanity predicates used by the claims -/

/-- Interpret a slash-separated path: drop empty and `.` segments, let `..`
remove the previous segment.  Used to decide whether a resolved destination
stays below the target root. -/
def interpSegs (l : List Char) : List (List Char) :=
  (splitSlash l).foldl
    (fun acc seg =>
      if seg = [] ∨ seg = ['.'] then acc
      else if seg = ['.', '.'] then acc.dropLast
      else acc ++ [seg]) []

/-- `resolved` denotes a location at or below `target`. -/
def insideSubtree (target resolved : String) : Bool :=
  (interpSegs target.data).isPrefixOf (interpSegs resolved.data)

/-- `seg` occurs as a slash-delimited segment of `l`. -/
def hasSeg (seg : List Char) (l : List Char) : Bool :=
  decide (seg ∈ splitSlash l)

/-- The path contains a parent-directory traversal segment `..`. -/
def hasTraversalSeg (p : String) : Bool := hasSeg ['.', '.'] p.data

/-- The path-safety property claimed of the resolver: an entry whose path
contains `..` is either filtered out or resolves inside the target
subtree. -/
def resolverPathSafe (target rel : String) : Prop :=
  hasTraversalSeg rel = true →
    isIgnored rel = true ∨ insideSubtree target (resolveDest target rel) = true

/-- Sanity of one entry with respect to a target: a file entry's normalized
destination does not begin with a slash (zip entry names are relative). -/
def saneEntry (cleanTarget : String) (e : ZEntry) : Bool :=
  e.dir || ! jsStartsWith (destPathOf cleanTarget e) "/"

/-- The vault is shaped like a filesystem: the parent path of every stored
entry is the root or is itself materialized, so `ensureFolderExists` on it
succeeds without touching storage. -/
def wellFormed (v : Vault) : Bool :=
  v.all fun pe =>
    decide ((ensureFolderExists detCreateFolder v (parentOf pe.1)).1 = v) &&
      (ensureFolderExists detCreateFolder v (parentOf pe.1)).2.isSome

/-- Outcomes the orchestrator reports as per-entry warnings
(DirectoryConflict, WriteConflict, WriteError). -/
def isEntryFailure : EntryOutcome → Bool
  | EntryOutcome.dirFailed => true
  | EntryOutcome.parentFailed => true
  | EntryOutcome.writeConflict => true
  | EntryOutcome.writeFailed => true
  | _ => false

/-- `v'` preserves every binding of `v`. -/
def VaultExtends (v v' : Vault) : Prop :=
  ∀ p x, lookupPath v p = some x → lookupPath v' p = some x

/-- The deterministic `ensureFolderExists` succeeds on `p` over `v` without
modifying it. -/
def EnsureNoopOk (v : Vault) (p : String) : Prop :=
  (ensureFolderExists detCreateFolder v p).1 = v ∧
    ((ensureFolderExists detCreateFolder v p).2).isSome = true

/-- The deterministic `ensureFolderExists` fails on `p` over `v`. -/
def EnsureFails (v : Vault) (p : String) : Prop :=
  (ensureFolderExists detCreateFolder v p).2 = none

/-- The writer cannot change `v` at destination `ndp`: the destination is the
root, or something already occupies the checked path. -/
def WriterSettled (v : Vault) (ndp : String) : Prop :=
  ndp = "/" ∨ ∃ x, lookupPath v (pathToCheckOf ndp) = some x

/-- Reprocessing `e` over `v` (with the deterministic host) can change
neither the vault nor the file count. -/
def Saturated (cleanTarget : String) (v : Vault) (e : ZEntry) : Prop :=
  isIgnored e.relativePath = true ∨
  (e.dir = true ∧
    (dirPathOf cleanTarget e = "" ∨
      (ensureFolderExists detCreateFolder v (dirPathOf cleanTarget e)).1 = v)) ∨
  (e.dir = false ∧
    (WriterSettled v (destPathOf cleanTarget e) ∨
      (parentOf (destPathOf cleanTarget e) ≠ "" ∧
        parentOf (destPathOf cleanTarget e) ≠ cleanTarget ∧
        EnsureFails v (parentOf (destPathOf cleanTarget e)))) ∧
    ((ensureFolderExists detCreateFolder v (parentOf (destPathOf cleanTarget e))).1 = v ∨
      parentOf (destPathOf cleanTarget e) = "" ∨
      parentOf (destPathOf cleanTarget e) = cleanTarget))

/-! ## Theorems -/

theorem pathToCheckOf_of_not_slash {ndp : String}
    (h : jsStartsWith ndp "/" = false) : pathToCheckOf ndp = ndp := by
  unfold pathToCheckOf
  simp [h]

/-- Claim C4: an entry whose path begins with the reserved metadata prefix
`__MACOSX/`, whose final path segment is `.DS_Store`, or whose path is empty
is dropped silently: the loop state (vault, directory set, file count,
warnings) is untouched and no `ensureFolderExists` call is issued, for any
target state. -/
theorem metadata_entries_dropped (ops : FsOps) (cleanTarget : String)
    (st : RunState) (e : ZEntry)
    (h : jsStartsWith e.relativePath "__MACOSX/" = true ∨
      (jsSplit e.relativePath).getLast? = some ".DS_Store" ∨
      e.relativePath = "") :
    processEntry ops cleanTarget st e = ⟨st, EntryOutcome.ignored, []⟩ := by
  have hig : isIgnored e.relativePath = true := by
    unfold isIgnored
    rcases h with h | h | h <;> simp [h]
  unfold processEntry
  simp [hig]

/-- Witness for `metadata_entries_dropped` at a concrete metadata entry and
a concrete target state. -/
theorem metadata_entries_dropped_witness :
    (jsStartsWith "__MACOSX/foo.txt" "__MACOSX/" = true ∨
      (jsSplit "__MACOSX/foo.txt").getLast? = some ".DS_Store" ∨
      "__MACOSX/foo.txt" = "") ∧
    processEntry detOps "Course Modules"
      ⟨[("Course Modules", Entity.folder)], [], 0, []⟩
      ⟨"__MACOSX/foo.txt", false, [1, 2]⟩ =
      ⟨⟨[("Course Modules", Entity.folder)], [], 0, []⟩,
        EntryOutcome.ignored, []⟩ :=
  ⟨Or.inl (by decide),
    metadata_entries_dropped detOps "Course Modules"
      ⟨[("Course Modules", Entity.folder)], [], 0, []⟩
      ⟨"__MACOSX/foo.txt", false, [1, 2]⟩ (Or.inl (by decide))⟩

/-- Claim C5: when decoding the downloaded buffer fails, the run aborts with
`ArchiveFormatError`, nothing is written or created, and the destination
tree is returned unchanged. -/
theorem decode_failure_atomic
    (decode : List Nat → Except ArchiveFormatError (List ZEntry))
    (ops : FsOps) (cleanTarget : String) (zipData : List Nat) (v : Vault)
    (err : ArchiveFormatError) (h : decode zipData = Except.error err) :
    unzipAndWrite decode ops cleanTarget zipData v =
      (v, UnzipOutcome.aborted err) := by
  unfold unzipAndWrite
  rw [h]

/-- Witness for `decode_failure_atomic` on a concrete invalid buffer and a
concrete non-empty vault. -/
theorem decode_failure_atomic_witness :
    (fun (_ : List Nat) =>
        (Except.error ArchiveFormatError.invalidArchive :
          Except ArchiveFormatError (List ZEntry))) [1, 2, 3] =
      Except.error ArchiveFormatError.invalidArchive ∧
    unzipAndWrite
      (fun _ => Except.error ArchiveFormatError.invalidArchive) detOps
      "Course Modules" [1, 2, 3] [("a.txt", Entity.file [0])] =
      ([("a.txt", Entity.file [0])],
        UnzipOutcome.aborted ArchiveFormatError.invalidArchive) :=
  ⟨rfl,
    decode_failure_atomic (fun _ => Except.error ArchiveFormatError.invalidArchive)
      detOps "Course Modules" [1, 2, 3] [("a.txt", Entity.file [0])]
      ArchiveFormatError.invalidArchive rfl⟩

/-- Claim C10: a URL that starts with neither `http://` nor `https://` makes
`downloadAndUnzip` return at once: no URL is fetched, no folder is ensured
or created, and the vault is unchanged. -/
theorem invalid_url_guard (deps : PluginDeps) (ops : FsOps)
    (targetFolderSetting : String) (v : Vault) (url : String)
    (h1 : jsStartsWith url "http://" = false)
    (h2 : jsStartsWith url "https://" = false) :
    downloadAndUnzip deps ops targetFolderSetting v url =
      ⟨v, [], [], DlOutcome.invalidUrl⟩ := by
  unfold downloadAndUnzip
  simp [h1, h2]

/-- Witness for `invalid_url_guard` at a concrete non-HTTP URL. -/
theorem invalid_url_guard_witness :
    jsStartsWith "ftp://example.com/m.zip" "http://" = false ∧
    jsStartsWith "ftp://example.com/m.zip" "https://" = false ∧
    downloadAndUnzip
      ⟨fun _ => Except.error "offline",
        fun _ => Except.error ArchiveFormatError.invalidArchive⟩
      detOps "Course Modules" [("a.txt", Entity.file [0])]
      "ftp://example.com/m.zip" =
      ⟨[("a.txt", Entity.file [0])], [], [], DlOutcome.invalidUrl⟩ :=
  ⟨by decide, by decide,
    invalid_url_guard
      ⟨fun _ => Except.error "offline",
        fun _ => Except.error ArchiveFormatError.invalidArchive⟩
      detOps "Course Modules" [("a.txt", Entity.file [0])]
      "ftp://example.com/m.zip" (by decide) (by decide)⟩

/-- Claim C8: when the creation attempt inside `ensureFolderExists` fails
but a re-check finds a folder at the normalized path, the folder is returned
as success; when the re-check finds no folder, the call fails. -/
theorem ensure_folder_race_recovery (create : String → Vault → Vault × Bool)
    (s : Vault) (path : String)
    (h1 : path ≠ "/") (h2 : path ≠ "")
    (h3 : jsStripOuterSlashes path ≠ "")
    (h4 : lookupPath s (jsStripOuterSlashes path) = none)
    (h5 : (create (jsStripOuterSlashes path) s).2 = false) :
    (lookupPath (create (jsStripOuterSlashes path) s).1
        (jsStripOuterSlashes path) = some Entity.folder →
      ensureFolderExists create s path =
        ((create (jsStripOuterSlashes path) s).1,
          some (jsStripOuterSlashes path))) ∧
    (lookupPath (create (jsStripOuterSlashes path) s).1
        (jsStripOuterSlashes path) ≠ some Entity.folder →
      ensureFolderExists create s path =
        ((create (jsStripOuterSlashes path) s).1, none)) := by
  have hroot : ¬ (path = "/" ∨ path = "") := by
    intro hcontra
    rcases hcontra with h | h
    · exact h1 h
    · exact h2 h
  rcases hc : create (jsStripOuterSlashes path) s with ⟨s', ok⟩
  have hok : ok = false := by
    have h5' := h5
    rw [hc] at h5'
    exact h5'
  subst hok
  constructor
  · intro hfound
    simp only at hfound
    unfold ensureFolderExists
    simp [hroot, h3, h4, hc, hfound]
  · intro hnotfound
    simp only at hnotfound
    unfold ensureFolderExists
    rcases hlk : lookupPath s' (jsStripOuterSlashes path) with _ | e
    · simp [hroot, h3, h4, hc, hlk]
    · cases e with
      | file d => simp [hroot, h3, h4, hc, hlk]
      | folder => exact absurd hlk hnotfound

/-- Witness for `ensure_folder_race_recovery`: a host whose `createFolder`
reports failure even though the folder then exists (a creation race). -/
theorem ensure_folder_race_recovery_witness :
    ("a" : String) ≠ "/" ∧ ("a" : String) ≠ "" ∧
    jsStripOuterSlashes "a" ≠ "" ∧
    lookupPath [] (jsStripOuterSlashes "a") = none ∧
    ((fun p v => ((p, Entity.folder) :: v, false))
        (jsStripOuterSlashes "a") ([] : Vault)).2 = false ∧
    (lookupPath ((fun p v => ((p, Entity.folder) :: v, false))
          (jsStripOuterSlashes "a") ([] : Vault)).1
        (jsStripOuterSlashes "a") = some Entity.folder →
      ensureFolderExists (fun p v => ((p, Entity.folder) :: v, false)) [] "a" =
        (((fun p v => ((p, Entity.folder) :: v, false))
            (jsStripOuterSlashes "a") ([] : Vault)).1,
          some (jsStripOuterSlashes "a"))) :=
  ⟨by decide, by decide, by decide, by decide, by decide,
    (ensure_folder_race_recovery (fun p v => ((p, Entity.folder) :: v, false))
      [] "a" (by decide) (by decide) (by decide) (by decide) (by decide)).1⟩

/-- Claim C1 (counterexample): the resolver is not path-safe.  The entry
`../../escape.txt` under target `Course Modules` is not filtered and its
resolved destination interprets to a location outside the target subtree. -/
theorem resolver_not_path_safe :
    ¬ resolverPathSafe "Course Modules" "../../escape.txt" := by
  intro h
  rcases h (by decide) with h' | h'
  · exact absurd h' (by decide)
  · exact absurd h' (by decide)

theorem step_warning_count (ops : FsOps) (cleanTarget : String)
    (st : RunState) (e : ZEntry) :
    (processEntry ops cleanTarget st e).state.warnings.length
      = st.warnings.length +
        (if isEntryFailure (processEntry ops cleanTarget st e).outcome
          then 1 else 0) := by
  unfold processEntry
  cases hig : isIgnored e.relativePath with
  | true => simp [isEntryFailure]
  | false =>
    cases hdir : e.dir with
    | true =>
      simp only [Bool.false_eq_true, if_false, if_true]
      by_cases hg : ¬ dirPathOf cleanTarget e = "" ∧
          memStr (dirPathOf cleanTarget e) st.created = false
      · rcases hens : ensureFolderExists ops.createFolder st.vault
            (dirPathOf cleanTarget e) with ⟨v', res⟩
        cases res <;> simp [hg, hens, isEntryFailure]
      · simp [hg, isEntryFailure]
    | false =>
      simp only [Bool.false_eq_true, if_false]
      by_cases hg : ¬ parentOf (destPathOf cleanTarget e) = "" ∧
          ¬ parentOf (destPathOf cleanTarget e) = cleanTarget ∧
          memStr (parentOf (destPathOf cleanTarget e)) st.created = false
      · rcases hens : ensureFolderExists ops.createFolder st.vault
            (parentOf (destPathOf cleanTarget e)) with ⟨v', res⟩
        cases res with
        | none => simp [hg, hens, isEntryFailure]
        | some x =>
          unfold finishWrite
          rcases hw : writeEntryFile ops v' (destPathOf cleanTarget e) e.data
            with ⟨v'', wres⟩
          cases wres <;> simp [hg, hens, hw, isEntryFailure]
      · unfold finishWrite
        rcases hw : writeEntryFile ops st.vault (destPathOf cleanTarget e) e.data
          with ⟨v'', wres⟩
        cases wres <;> simp [hg, hw, isEntryFailure]

/-- Claim C6: entry-level failures are contained.  Every entry is processed
(one outcome per entry, in decoder order, so no failure stops the
iteration), and each failing entry contributes exactly one warning: the
final warning count is the initial one plus the number of failing
outcomes. -/
theorem entry_failures_contained (ops : FsOps) (cleanTarget : String)
    (entries : List ZEntry) (st : RunState) :
    (runEntries ops cleanTarget entries st).2.length = entries.length ∧
    (runEntries ops cleanTarget entries st).1.warnings.length
      = st.warnings.length +
        ((runEntries ops cleanTarget entries st).2.filter
          (fun po => isEntryFailure po.2)).length := by
  induction entries generalizing st with
  | nil => simp [runEntries]
  | cons e rest ih =>
    have hstep := step_warning_count ops cleanTarget st e
    have ihr := ih (processEntry ops cleanTarget st e).state
    constructor
    · simp [runEntries, ihr.1]
    · simp only [runEntries, List.filter_cons]
      cases hif : isEntryFailure (processEntry ops cleanTarget st e).outcome with
      | true =>
        simp only [hif] at hstep
        simp [hif, ihr.2, hstep]
        try omega
      | false =>
        simp only [hif] at hstep
        simp [hif, ihr.2, hstep]
        try omega

theorem lookupPath_some_mem {v : Vault} {p : String} {x : Entity}
    (h : lookupPath v p = some x) : (p, x) ∈ v := by
  induction v with
  | nil => simp [lookupPath] at h
  | cons pe rest ih =>
    rcases pe with ⟨q, y⟩
    by_cases hq : q = p
    · subst hq
      simp [lookupPath] at h
      subst h
      exact List.mem_cons_self _ _
    · simp [lookupPath, hq] at h
      exact List.mem_cons_of_mem _ (ih h)

theorem lookupPath_prepend_fresh {v : Vault} {q p : String} {x : Entity}
    (y : Entity) (hq : lookupPath v q = none) (hp : lookupPath v p = some x) :
    lookupPath ((q, y) :: v) p = some x := by
  have hne : q ≠ p := by
    intro he
    subst he
    rw [hq] at hp
    exact Option.noConfusion hp
  simp [lookupPath, hne, hp]

theorem vault_cons_ne (q : String) (y : Entity) (v : Vault) :
    (q, y) :: v ≠ v := by
  intro h
  have := congrArg List.length h
  simp at this

/-- Complete case analysis of `ensureFolderExists` over the deterministic
host. -/
theorem ensure_det_cases (v : Vault) (p : String) :
    ((p = "/" ∨ p = "" ∨ jsStripOuterSlashes p = "") ∧
      ensureFolderExists detCreateFolder v p = (v, some "/")) ∨
    (¬ (p = "/" ∨ p = "") ∧ jsStripOuterSlashes p ≠ "" ∧
      ((lookupPath v (jsStripOuterSlashes p) = some Entity.folder ∧
          ensureFolderExists detCreateFolder v p =
            (v, some (jsStripOuterSlashes p))) ∨
        ((∃ b, lookupPath v (jsStripOuterSlashes p) = some (Entity.file b)) ∧
          ensureFolderExists detCreateFolder v p = (v, none)) ∨
        (lookupPath v (jsStripOuterSlashes p) = none ∧
          ensureFolderExists detCreateFolder v p =
            ((jsStripOuterSlashes p, Entity.folder) :: v,
              some (jsStripOuterSlashes p))))) := by
  by_cases h1 : p = "/" ∨ p = ""
  · refine Or.inl ⟨?_, ?_⟩
    · rcases h1 with h | h
      · exact Or.inl h
      · exact Or.inr (Or.inl h)
    · unfold ensureFolderExists
      simp [h1]
  · by_cases h2 : jsStripOuterSlashes p = ""
    · refine Or.inl ⟨Or.inr (Or.inr h2), ?_⟩
      unfold ensureFolderExists
      simp [h1, h2]
    · refine Or.inr ⟨h1, h2, ?_⟩
      rcases hlk : lookupPath v (jsStripOuterSlashes p) with _ | x
      · refine Or.inr (Or.inr ⟨rfl, ?_⟩)
        unfold ensureFolderExists
        simp [h1, h2, hlk, detCreateFolder]
      · cases x with
        | folder =>
          refine Or.inl ⟨rfl, ?_⟩
          unfold ensureFolderExists
          simp [h1, h2, hlk]
        | file d =>
          refine Or.inr (Or.inl ⟨⟨d, rfl⟩, ?_⟩)
          unfold ensureFolderExists
          simp [h1, h2, hlk]

theorem ensure_det_extends (v : Vault) (p : String) :
    VaultExtends v (ensureFolderExists detCreateFolder v p).1 := by
  rcases ensure_det_cases v p with ⟨_, heq⟩ | ⟨_, _, hcase⟩
  · rw [heq]
    exact fun _ _ h => h
  · rcases hcase with ⟨_, heq⟩ | ⟨_, heq⟩ | ⟨hnone, heq⟩
    · rw [heq]
      exact fun _ _ h => h
    · rw [heq]
      exact fun _ _ h => h
    · rw [heq]
      exact fun q x h => lookupPath_prepend_fresh _ hnone h

theorem vaultExtends_trans {a b c : Vault}
    (h1 : VaultExtends a b) (h2 : VaultExtends b c) : VaultExtends a c :=
  fun p x h => h2 p x (h1 p x h)

theorem ensure_det_noop_iff (v : Vault) (p : String) :
    (ensureFolderExists detCreateFolder v p).1 = v ↔
      (p = "/" ∨ p = "" ∨ jsStripOuterSlashes p = "" ∨
        ∃ x, lookupPath v (jsStripOuterSlashes p) = some x) := by
  rcases ensure_det_cases v p with ⟨hcond, heq⟩ | ⟨h1, h2, hcase⟩
  · rw [heq]
    simp only [true_iff]
    rcases hcond with h | h | h
    · exact Or.inl h
    · exact Or.inr (Or.inl h)
    · exact Or.inr (Or.inr (Or.inl h))
  · rcases hcase with ⟨hlk, heq⟩ | ⟨⟨b, hlk⟩, heq⟩ | ⟨hnone, heq⟩
    · rw [heq]
      simp only [true_iff]
      exact Or.inr (Or.inr (Or.inr ⟨_, hlk⟩))
    · rw [heq]
      simp only [true_iff]
      exact Or.inr (Or.inr (Or.inr ⟨_, hlk⟩))
    · rw [heq]
      constructor
      · intro hcontr
        exact absurd hcontr (vault_cons_ne _ _ _)
      · intro hr
        rcases hr with h | h | h | ⟨x, hx⟩
        · exact absurd (Or.inl h) h1
        · exact absurd (Or.inr h) h1
        · exact absurd h h2
        · rw [hnone] at hx
          exact Option.noConfusion hx

theorem ensure_det_some_iff (v : Vault) (p : String) :
    ((ensureFolderExists detCreateFolder v p).2).isSome = true ↔
      (p = "/" ∨ p = "" ∨ jsStripOuterSlashes p = "" ∨
        lookupPath v (jsStripOuterSlashes p) = some Entity.folder ∨
        lookupPath v (jsStripOuterSlashes p) = none) := by
  rcases ensure_det_cases v p with ⟨hcond, heq⟩ | ⟨h1, h2, hcase⟩
  · rw [heq]
    simp only [Option.isSome_some, true_iff]
    rcases hcond with h | h | h
    · exact Or.inl h
    · exact Or.inr (Or.inl h)
    · exact Or.inr (Or.inr (Or.inl h))
  · rcases hcase with ⟨hlk, heq⟩ | ⟨⟨b, hlk⟩, heq⟩ | ⟨hnone, heq⟩
    · rw [heq]
      simp only [Option.isSome_some, true_iff]
      exact Or.inr (Or.inr (Or.inr (Or.inl hlk)))
    · rw [heq]
      simp only [Option.isSome_none, Bool.false_eq_true, false_iff]
      intro hr
      rcases hr with h | h | h | h | h
      · exact h1 (Or.inl h)
      · exact h1 (Or.inr h)
      · exact h2 h
      · rw [hlk] at h
        exact Entity.noConfusion (Option.some.inj h)
      · rw [hlk] at h
        exact Option.noConfusion h
    · rw [heq]
      simp only [Option.isSome_some, true_iff]
      exact Or.inr (Or.inr (Or.inr (Or.inr hnone)))

theorem ensure_det_none_iff (v : Vault) (p : String) :
    (ensureFolderExists detCreateFolder v p).2 = none ↔
      (¬ (p = "/" ∨ p = "") ∧ jsStripOuterSlashes p ≠ "" ∧
        ∃ b, lookupPath v (jsStripOuterSlashes p) = some (Entity.file b)) := by
  rcases ensure_det_cases v p with ⟨hcond, heq⟩ | ⟨h1, h2, hcase⟩
  · rw [heq]
    constructor
    · intro hc
      exact Option.noConfusion hc
    · rintro ⟨ha, hb, -⟩
      rcases hcond with h | h | h
      · exact absurd (Or.inl h) ha
      · exact absurd (Or.inr h) ha
      · exact absurd h hb
  · rcases hcase with ⟨hlk, heq⟩ | ⟨⟨b, hlk⟩, heq⟩ | ⟨hnone, heq⟩
    · rw [heq]
      constructor
      · intro hc
        exact Option.noConfusion hc
      · rintro ⟨-, -, c, hc⟩
        rw [hlk] at hc
        exact Entity.noConfusion (Option.some.inj hc)
    · rw [heq]
      simp only [true_iff]
      exact ⟨h1, h2, b, hlk⟩
    · rw [heq]
      constructor
      · intro hc
        exact Option.noConfusion hc
      · rintro ⟨-, -, c, hc⟩
        rw [hnone] at hc
        exact Option.noConfusion hc

theorem string_eq_empty_iff (s : String) : s = "" ↔ s.data = [] := by
  cases s
  simp [String.ext_iff]

theorem collapseAux_false_ne_nil (c : Char) (l : List Char) :
    collapseAux false (c :: l) ≠ [] := by
  unfold collapseAux
  by_cases h : c = '/' <;> simp [h]

theorem jsNormalizeSeps_ne_empty {p : String} (h : p ≠ "") :
    jsNormalizeSeps p ≠ "" := by
  unfold jsNormalizeSeps collapseSlashes
  rcases hd : p.data with _ | ⟨c, l⟩
  · exact absurd ((string_eq_empty_iff p).mpr hd) h
  · intro hc
    have h2 := (string_eq_empty_iff _).mp hc
    simp only [List.map_cons] at h2
    exact collapseAux_false_ne_nil _ _ h2

theorem string_append_data (a b : String) : (a ++ b).data = a.data ++ b.data := by
  cases a
  cases b
  rfl

theorem destPathOf_ne_empty (cleanTarget : String) (e : ZEntry)
    (h : e.relativePath ≠ "") : destPathOf cleanTarget e ≠ "" := by
  unfold destPathOf resolveDest
  by_cases hct : cleanTarget = ""
  · simp only [hct, ne_eq, not_true_eq_false, if_false]
    exact jsNormalizeSeps_ne_empty h
  · simp only [ne_eq, hct, not_false_eq_true, if_true]
    apply jsNormalizeSeps_ne_empty
    intro hc
    have h2 := (string_eq_empty_iff _).mp hc
    rw [string_append_data, string_append_data] at h2
    rcases hd : cleanTarget.data with _ | ⟨c, l⟩
    · exact absurd ((string_eq_empty_iff cleanTarget).mpr hd) hct
    · rw [hd] at h2
      simp at h2

theorem isIgnored_empty : isIgnored "" = true := by decide

theorem rel_ne_empty_of_not_ignored {rel : String}
    (h : isIgnored rel = false) : rel ≠ "" := by
  intro he
  subst he
  rw [isIgnored_empty] at h
  exact Bool.noConfusion h

theorem ndp_ne_root_of_not_slash {ndp : String}
    (h : jsStartsWith ndp "/" = false) : ndp ≠ "/" := by
  intro he
  subst he
  exact absurd h (by decide)

theorem writeEntryFile_skip_file (ops : FsOps) (v : Vault) (ndp : String)
    (dat : List Nat) (b : List Nat)
    (hne : ndp ≠ "") (hptc : pathToCheckOf ndp = ndp)
    (hlk : lookupPath v ndp = some (Entity.file b)) :
    writeEntryFile ops v ndp dat = (v, WriteOutcome.skippedExisting) := by
  unfold writeEntryFile
  simp [hptc, hne, hlk]

theorem writeEntryFile_conflict_folder (ops : FsOps) (v : Vault) (ndp : String)
    (dat : List Nat)
    (hne : ndp ≠ "") (hptc : pathToCheckOf ndp = ndp)
    (hlk : lookupPath v ndp = some Entity.folder) :
    writeEntryFile ops v ndp dat = (v, WriteOutcome.writeConflict) := by
  unfold writeEntryFile
  simp [hptc, hne, hlk]

theorem writeEntryFile_det_extends (v : Vault) (ndp : String) (dat : List Nat)
    (hptc : pathToCheckOf ndp = ndp) (hne : ndp ≠ "") :
    VaultExtends v (writeEntryFile detOps v ndp dat).1 := by
  unfold writeEntryFile
  rcases hlk : lookupPath v ndp with _ | x
  · simp [hptc, hne, hlk, detOps, detCreateBinary]
    exact fun q x h => lookupPath_prepend_fresh _ hlk h
  · cases x <;> simp [hptc, hne, hlk] <;> exact fun _ _ h => h

theorem wellFormed_parent {v : Vault} {p : String} {x : Entity}
    (hwf : wellFormed v = true) (h : lookupPath v p = some x) :
    (ensureFolderExists detCreateFolder v (parentOf p)).1 = v ∧
      ((ensureFolderExists detCreateFolder v (parentOf p)).2).isSome = true := by
  have hmem := lookupPath_some_mem h
  have hall := (List.all_eq_true.mp hwf) (p, x) hmem
  simp only [Bool.and_eq_true, decide_eq_true_eq] at hall
  exact hall

theorem detOps_createFolder : detOps.createFolder = detCreateFolder := rfl

theorem detOps_createBinary : detOps.createBinary = detCreateBinary := rfl

theorem finishWrite_det_extends (st : RunState) (ndp : String) (dat : List Nat)
    (calls : List String) (hptc : pathToCheckOf ndp = ndp) (hne : ndp ≠ "") :
    VaultExtends st.vault (finishWrite detOps st ndp dat calls).state.vault := by
  unfold finishWrite
  rcases hwr : writeEntryFile detOps st.vault ndp dat with ⟨v'', wres⟩
  have hw := writeEntryFile_det_extends st.vault ndp dat hptc hne
  rw [hwr] at hw
  cases wres <;> simpa using hw

theorem processEntry_det_extends (cleanTarget : String) (st : RunState)
    (e : ZEntry) (hsane : saneEntry cleanTarget e = true) :
    VaultExtends st.vault (processEntry detOps cleanTarget st e).state.vault := by
  have hrefl : VaultExtends st.vault st.vault := fun _ _ h => h
  unfold processEntry
  dsimp only
  split
  · exact hrefl
  · rename_i hig
    have hig' : isIgnored e.relativePath = false := by simpa using hig
    split
    · split
      · split
        · rename_i v' val heq
          have h := ensure_det_extends st.vault (dirPathOf cleanTarget e)
          rw [detOps_createFolder] at heq
          rw [heq] at h
          exact h
        · rename_i v' heq
          have h := ensure_det_extends st.vault (dirPathOf cleanTarget e)
          rw [detOps_createFolder] at heq
          rw [heq] at h
          exact h
      · exact hrefl
    · rename_i hdir
      have hd : e.dir = false := by
        cases hde : e.dir
        · rfl
        · exact absurd hde hdir
      have hnoslash : jsStartsWith (destPathOf cleanTarget e) "/" = false := by
        unfold saneEntry at hsane
        rw [hd] at hsane
        simpa using hsane
      have hptc := pathToCheckOf_of_not_slash hnoslash
      have hne : destPathOf cleanTarget e ≠ "" :=
        destPathOf_ne_empty cleanTarget e (rel_ne_empty_of_not_ignored hig')
      split
      · split
        · rename_i v' val heq
          have hext : VaultExtends st.vault v' := by
            have h := ensure_det_extends st.vault
              (parentOf (destPathOf cleanTarget e))
            rw [detOps_createFolder] at heq
            rw [heq] at h
            exact h
          exact vaultExtends_trans hext
            (finishWrite_det_extends { st with vault := v', created := parentOf (destPathOf cleanTarget e) :: st.created }
              (destPathOf cleanTarget e) e.data
              [parentOf (destPathOf cleanTarget e)] hptc hne)
        · rename_i v' heq
          have h := ensure_det_extends st.vault
            (parentOf (destPathOf cleanTarget e))
          rw [detOps_createFolder] at heq
          rw [heq] at h
          exact h
      · exact finishWrite_det_extends st (destPathOf cleanTarget e) e.data [] hptc hne

theorem runEntries_det_extends (cleanTarget : String) (entries : List ZEntry)
    (st : RunState) (hsane : ∀ e ∈ entries, saneEntry cleanTarget e = true) :
    VaultExtends st.vault (runEntries detOps cleanTarget entries st).1.vault := by
  induction entries generalizing st with
  | nil =>
    simp only [runEntries]
    exact fun _ _ h => h
  | cons e rest ih =>
    have h1 := processEntry_det_extends cleanTarget st e
      (hsane e (List.mem_cons_self _ _))
    have h2 := ih (processEntry detOps cleanTarget st e).state
      (fun x hx => hsane x (List.mem_cons_of_mem _ hx))
    simp only [runEntries]
    exact vaultExtends_trans h1 h2

/-- Claim C3: non-clobbering.  First, the entry writer returns `Skipped` and
leaves the vault unchanged whenever a file already occupies the destination,
whatever the entry's data.  Second, over a whole extraction run a
pre-existing file's bytes are never changed. -/
theorem non_clobbering :
    (∀ (ops : FsOps) (v : Vault) (ndp : String) (dat b : List Nat),
      ndp ≠ "" → jsStartsWith ndp "/" = false →
      lookupPath v ndp = some (Entity.file b) →
      writeEntryFile ops v ndp dat = (v, WriteOutcome.skippedExisting)) ∧
    (∀ (cleanTarget : String) (entries : List ZEntry) (v : Vault)
        (p : String) (b : List Nat),
      (∀ e ∈ entries, saneEntry cleanTarget e = true) →
      lookupPath v p = some (Entity.file b) →
      lookupPath (extractArchive detOps cleanTarget entries v).1.vault p =
        some (Entity.file b)) := by
  constructor
  · intro ops v ndp dat b hne hns hlk
    exact writeEntryFile_skip_file ops v ndp dat b hne
      (pathToCheckOf_of_not_slash hns) hlk
  · intro cleanTarget entries v p b hsane hlk
    exact runEntries_det_extends cleanTarget entries ⟨v, [], 0, []⟩ hsane p _ hlk

/-- Witness for `non_clobbering`: an existing `a.txt` with bytes `[1, 2]` is
skipped by the writer and survives a run whose archive carries different
bytes for the same path. -/
theorem non_clobbering_witness :
    writeEntryFile detOps [("a.txt", Entity.file [1, 2])] "a.txt" [9] =
      ([("a.txt", Entity.file [1, 2])], WriteOutcome.skippedExisting) ∧
    lookupPath
      (extractArchive detOps "" [⟨"a.txt", false, [9]⟩]
        [("a.txt", Entity.file [1, 2])]).1.vault "a.txt" =
      some (Entity.file [1, 2]) :=
  ⟨non_clobbering.1 detOps [("a.txt", Entity.file [1, 2])] "a.txt" [9] [1, 2]
      (by decide) (by decide) (by decide),
    non_clobbering.2 "" [⟨"a.txt", false, [9]⟩] [("a.txt", Entity.file [1, 2])]
      "a.txt" [1, 2] (by decide) (by decide)⟩

/-- Claim C7: a file entry whose resolved destination is occupied by a
directory yields exactly one `WriteConflict` warning for that path, no write
(the vault is unchanged), no file-count change, and the loop records the
`writeConflict` outcome and moves on. -/
theorem write_conflict_on_directory (cleanTarget : String) (st : RunState)
    (e : ZEntry)
    (hdir : e.dir = false)
    (hig : isIgnored e.relativePath = false)
    (hwf : wellFormed st.vault = true)
    (hns : jsStartsWith (destPathOf cleanTarget e) "/" = false)
    (hfolder : lookupPath st.vault (destPathOf cleanTarget e) =
      some Entity.folder) :
    (processEntry detOps cleanTarget st e).state.vault = st.vault ∧
    (processEntry detOps cleanTarget st e).state.fileCount = st.fileCount ∧
    (processEntry detOps cleanTarget st e).state.warnings
      = st.warnings ++ [(destPathOf cleanTarget e, WarnReason.writeConflict)] ∧
    (processEntry detOps cleanTarget st e).outcome =
      EntryOutcome.writeConflict := by
  have hptc := pathToCheckOf_of_not_slash hns
  have hne : destPathOf cleanTarget e ≠ "" :=
    destPathOf_ne_empty cleanTarget e (rel_ne_empty_of_not_ignored hig)
  have hpar := wellFormed_parent hwf hfolder
  rcases hres : ensureFolderExists detCreateFolder st.vault
      (parentOf (destPathOf cleanTarget e)) with ⟨v1, r⟩
  have h1 : v1 = st.vault := by
    have h := hpar.1
    rw [hres] at h
    exact h
  have h2 : r.isSome = true := by
    have h := hpar.2
    rw [hres] at h
    exact h
  obtain ⟨y, hy⟩ := Option.isSome_iff_exists.mp h2
  subst h1
  subst hy
  have hwr := writeEntryFile_conflict_folder detOps st.vault
    (destPathOf cleanTarget e) e.data hne hptc hfolder
  unfold processEntry
  dsimp only
  simp only [hig, Bool.false_eq_true, if_false, hdir]
  by_cases hg : parentOf (destPathOf cleanTarget e) ≠ "" ∧
      parentOf (destPathOf cleanTarget e) ≠ cleanTarget ∧
      ¬ memStr (parentOf (destPathOf cleanTarget e)) st.created = true
  · rw [if_pos hg]
    simp only [detOps_createFolder, hres]
    unfold finishWrite
    simp only [hwr]
    exact ⟨trivial, trivial, trivial, trivial⟩
  · rw [if_neg hg]
    unfold finishWrite
    simp only [hwr]
    exact ⟨trivial, trivial, trivial, trivial⟩

/-- Witness for `write_conflict_on_directory`: archive file entry `x` under
target `T` collides with the existing directory `T/x`. -/
theorem write_conflict_on_directory_witness :
    wellFormed [("T", Entity.folder), ("T/x", Entity.folder)] = true ∧
    ((processEntry detOps "T"
        ⟨[("T", Entity.folder), ("T/x", Entity.folder)], [], 0, []⟩
        ⟨"x", false, [5]⟩).state.vault =
      [("T", Entity.folder), ("T/x", Entity.folder)] ∧
    (processEntry detOps "T"
        ⟨[("T", Entity.folder), ("T/x", Entity.folder)], [], 0, []⟩
        ⟨"x", false, [5]⟩).state.fileCount = 0 ∧
    (processEntry detOps "T"
        ⟨[("T", Entity.folder), ("T/x", Entity.folder)], [], 0, []⟩
        ⟨"x", false, [5]⟩).state.warnings =
      [] ++ [(destPathOf "T" ⟨"x", false, [5]⟩, WarnReason.writeConflict)] ∧
    (processEntry detOps "T"
        ⟨[("T", Entity.folder), ("T/x", Entity.folder)], [], 0, []⟩
        ⟨"x", false, [5]⟩).outcome = EntryOutcome.writeConflict) :=
  ⟨by decide,
    write_conflict_on_directory "T"
      ⟨[("T", Entity.folder), ("T/x", Entity.folder)], [], 0, []⟩
      ⟨"x", false, [5]⟩ (by decide) (by decide) (by decide) (by decide)
      (by decide)⟩

theorem memStr_true_iff (p : String) (l : List String) :
    memStr p l = true ↔ p ∈ l := by
  induction l with
  | nil => simp [memStr]
  | cons q rest ih => simp [memStr, ih]

theorem lookupPath_prepend_self (v : Vault) (p : String) (y : Entity) :
    lookupPath ((p, y) :: v) p = some y := by
  simp [lookupPath]

/-- `ensureFolderExists` over the deterministic host is idempotent on the
vault. -/
theorem ensure_det_idem (v : Vault) (p : String) :
    (ensureFolderExists detCreateFolder
      ((ensureFolderExists detCreateFolder v p).1) p).1 =
      (ensureFolderExists detCreateFolder v p).1 := by
  rcases ensure_det_cases v p with ⟨hcond, heq⟩ | ⟨h1, h2, hcase⟩
  · rw [heq]
    apply (ensure_det_noop_iff v p).mpr
    rcases hcond with h | h | h
    · exact Or.inl h
    · exact Or.inr (Or.inl h)
    · exact Or.inr (Or.inr (Or.inl h))
  · rcases hcase with ⟨hlk, heq⟩ | ⟨⟨b, hlk⟩, heq⟩ | ⟨hnone, heq⟩
    · rw [heq]
      exact (ensure_det_noop_iff v p).mpr (Or.inr (Or.inr (Or.inr ⟨_, hlk⟩)))
    · rw [heq]
      exact (ensure_det_noop_iff v p).mpr (Or.inr (Or.inr (Or.inr ⟨_, hlk⟩)))
    · rw [heq]
      apply (ensure_det_noop_iff _ p).mpr
      exact Or.inr (Or.inr (Or.inr ⟨_, lookupPath_prepend_self v _ _⟩))

theorem ensure_det_fail_vault {v : Vault} {p : String}
    (h : (ensureFolderExists detCreateFolder v p).2 = none) :
    (ensureFolderExists detCreateFolder v p).1 = v := by
  rcases ensure_det_cases v p with ⟨hcond, heq⟩ | ⟨h1, h2, hcase⟩
  · rw [heq]
  · rcases hcase with ⟨hlk, heq⟩ | ⟨⟨b, hlk⟩, heq⟩ | ⟨hnone, heq⟩
    · rw [heq]
    · rw [heq]
    · rw [heq] at h
      exact Option.noConfusion h

theorem ensure_det_idem_some {v : Vault} {p : String}
    (h : ((ensureFolderExists detCreateFolder v p).2).isSome = true) :
    ((ensureFolderExists detCreateFolder
      ((ensureFolderExists detCreateFolder v p).1) p).2).isSome = true := by
  rcases ensure_det_cases v p with ⟨hcond, heq⟩ | ⟨h1, h2, hcase⟩
  · rw [heq]
    apply (ensure_det_some_iff v p).mpr
    rcases hcond with hc | hc | hc
    · exact Or.inl hc
    · exact Or.inr (Or.inl hc)
    · exact Or.inr (Or.inr (Or.inl hc))
  · rcases hcase with ⟨hlk, heq⟩ | ⟨⟨b, hlk⟩, heq⟩ | ⟨hnone, heq⟩
    · rw [heq]
      exact (ensure_det_some_iff v p).mpr (Or.inr (Or.inr (Or.inr (Or.inl hlk))))
    · rw [heq] at h
      exact Bool.noConfusion h
    · rw [heq]
      apply (ensure_det_some_iff _ p).mpr
      exact Or.inr (Or.inr (Or.inr (Or.inl (lookupPath_prepend_self v _ _))))

theorem ensure_noop_mono {v v' : Vault} (hext : VaultExtends v v') {p : String}
    (h : (ensureFolderExists detCreateFolder v p).1 = v) :
    (ensureFolderExists detCreateFolder v' p).1 = v' := by
  apply (ensure_det_noop_iff v' p).mpr
  rcases (ensure_det_noop_iff v p).mp h with h1 | h1 | h1 | ⟨x, hx⟩
  · exact Or.inl h1
  · exact Or.inr (Or.inl h1)
  · exact Or.inr (Or.inr (Or.inl h1))
  · exact Or.inr (Or.inr (Or.inr ⟨x, hext _ _ hx⟩))

theorem ensureNoopOk_mono {v v' : Vault} (hext : VaultExtends v v')
    {p : String} (h : EnsureNoopOk v p) : EnsureNoopOk v' p := by
  have hn := (ensure_det_noop_iff v p).mp h.1
  have hs := (ensure_det_some_iff v p).mp h.2
  constructor
  · exact ensure_noop_mono hext h.1
  · apply (ensure_det_some_iff v' p).mpr
    rcases hs with h1 | h1 | h1 | h1 | h1
    · exact Or.inl h1
    · exact Or.inr (Or.inl h1)
    · exact Or.inr (Or.inr (Or.inl h1))
    · exact Or.inr (Or.inr (Or.inr (Or.inl (hext _ _ h1))))
    · rcases hn with h2 | h2 | h2 | ⟨x, hx⟩
      · exact Or.inl h2
      · exact Or.inr (Or.inl h2)
      · exact Or.inr (Or.inr (Or.inl h2))
      · rw [h1] at hx
        exact Option.noConfusion hx

theorem ensureFails_mono {v v' : Vault} (hext : VaultExtends v v')
    {p : String} (h : EnsureFails v p) : EnsureFails v' p := by
  have hc := (ensure_det_none_iff v p).mp h
  apply (ensure_det_none_iff v' p).mpr
  obtain ⟨b, hb⟩ := hc.2.2
  exact ⟨hc.1, hc.2.1, b, hext _ _ hb⟩

theorem writerSettled_mono {v v' : Vault} (hext : VaultExtends v v')
    {ndp : String} (h : WriterSettled v ndp) : WriterSettled v' ndp := by
  rcases h with h | ⟨x, hx⟩
  · exact Or.inl h
  · exact Or.inr ⟨x, hext _ _ hx⟩

/-- Complete case analysis of the writer over the deterministic host. -/
theorem writeEntryFile_det_cases (v : Vault) (ndp : String) (dat : List Nat)
    (hptc : pathToCheckOf ndp = ndp) (hne : ndp ≠ "") :
    (lookupPath v ndp = none ∧
      writeEntryFile detOps v ndp dat =
        ((ndp, Entity.file dat) :: v, WriteOutcome.written)) ∨
    ((∃ b, lookupPath v ndp = some (Entity.file b)) ∧
      writeEntryFile detOps v ndp dat = (v, WriteOutcome.skippedExisting)) ∨
    (lookupPath v ndp = some Entity.folder ∧
      writeEntryFile detOps v ndp dat = (v, WriteOutcome.writeConflict)) := by
  rcases hlk : lookupPath v ndp with _ | x
  · refine Or.inl ⟨rfl, ?_⟩
    unfold writeEntryFile
    simp [hptc, hne, hlk, detOps, detCreateBinary]
  · cases x with
    | file b =>
      refine Or.inr (Or.inl ⟨⟨b, rfl⟩, ?_⟩)
      exact writeEntryFile_skip_file detOps v ndp dat b hne hptc hlk
    | folder =>
      refine Or.inr (Or.inr ⟨rfl, ?_⟩)
      exact writeEntryFile_conflict_folder detOps v ndp dat hne hptc hlk

theorem processEntry_det_step (cleanTarget : String) (st : RunState)
    (e : ZEntry) (hsane : saneEntry cleanTarget e = true)
    (hinv : ∀ p ∈ st.created, EnsureNoopOk st.vault p) :
    (∀ p ∈ (processEntry detOps cleanTarget st e).state.created,
      EnsureNoopOk (processEntry detOps cleanTarget st e).state.vault p) ∧
    Saturated cleanTarget (processEntry detOps cleanTarget st e).state.vault e := by
  unfold processEntry
  dsimp only
  split
  · rename_i hig
    exact ⟨hinv, Or.inl hig⟩
  · rename_i hig
    have hig' : isIgnored e.relativePath = false := by simpa using hig
    split
    · rename_i hdir
      split
      · rename_i hg
        split
        · rename_i v' val heq
          rw [detOps_createFolder] at heq
          have hidem := ensure_det_idem st.vault (dirPathOf cleanTarget e)
          rw [heq] at hidem
          have hsome : ((ensureFolderExists detCreateFolder st.vault
              (dirPathOf cleanTarget e)).2).isSome = true := by
            rw [heq]
            rfl
          have hisome := ensure_det_idem_some hsome
          rw [heq] at hisome
          have hextv' : VaultExtends st.vault v' := by
            have h := ensure_det_extends st.vault (dirPathOf cleanTarget e)
            rw [heq] at h
            exact h
          constructor
          · intro p hp
            dsimp only at hp ⊢
            rcases List.mem_cons.mp hp with hp1 | hp2
            · subst hp1
              exact ⟨by simpa using hidem, by simpa using hisome⟩
            · exact ensureNoopOk_mono hextv' (hinv p hp2)
          · exact Or.inr (Or.inl ⟨hdir, Or.inr (by simpa using hidem)⟩)
        · rename_i v' heq
          rw [detOps_createFolder] at heq
          have hnone : (ensureFolderExists detCreateFolder st.vault
              (dirPathOf cleanTarget e)).2 = none := by
            rw [heq]
          have hv' : v' = st.vault := by
            have h := ensure_det_fail_vault hnone
            rw [heq] at h
            exact h
          subst hv'
          constructor
          · intro p hp
            dsimp only at hp ⊢
            exact hinv p hp
          · refine Or.inr (Or.inl ⟨hdir, Or.inr ?_⟩)
            dsimp only
            simpa using ensure_det_fail_vault hnone
      · rename_i hg
        constructor
        · intro p hp
          dsimp only at hp ⊢
          exact hinv p hp
        · by_cases hdp : dirPathOf cleanTarget e = ""
          · exact Or.inr (Or.inl ⟨hdir, Or.inl hdp⟩)
          · have hmem : memStr (dirPathOf cleanTarget e) st.created = true := by
              by_contra hm
              exact hg ⟨hdp, by simpa using hm⟩
            have hin := hinv _ ((memStr_true_iff _ _).mp hmem)
            exact Or.inr (Or.inl ⟨hdir, Or.inr (by simpa using hin.1)⟩)
    · rename_i hdir
      have hd : e.dir = false := by
        cases hde : e.dir
        · rfl
        · exact absurd hde hdir
      have hnoslash : jsStartsWith (destPathOf cleanTarget e) "/" = false := by
        unfold saneEntry at hsane
        rw [hd] at hsane
        simpa using hsane
      have hptc := pathToCheckOf_of_not_slash hnoslash
      have hne : destPathOf cleanTarget e ≠ "" :=
        destPathOf_ne_empty cleanTarget e (rel_ne_empty_of_not_ignored hig')
      split
      · rename_i hg
        split
        · rename_i v' val heq
          rw [detOps_createFolder] at heq
          have hidem := ensure_det_idem st.vault
            (parentOf (destPathOf cleanTarget e))
          rw [heq] at hidem
          have hsome : ((ensureFolderExists detCreateFolder st.vault
              (parentOf (destPathOf cleanTarget e))).2).isSome = true := by
            rw [heq]
            rfl
          have hisome := ensure_det_idem_some hsome
          rw [heq] at hisome
          have hextv' : VaultExtends st.vault v' := by
            have h := ensure_det_extends st.vault
              (parentOf (destPathOf cleanTarget e))
            rw [heq] at h
            exact h
          have hnoopv' : EnsureNoopOk v' (parentOf (destPathOf cleanTarget e)) :=
            ⟨by simpa using hidem, by simpa using hisome⟩
          rcases writeEntryFile_det_cases v' (destPathOf cleanTarget e) e.data
              hptc hne with ⟨hlkn, hw⟩ | ⟨⟨b, hlkb⟩, hw⟩ | ⟨hlkf, hw⟩
          · unfold finishWrite
            dsimp only
            rw [hw]
            have hext2 : VaultExtends v' ((destPathOf cleanTarget e,
                Entity.file e.data) :: v') :=
              fun q x h => lookupPath_prepend_fresh _ hlkn h
            constructor
            · intro p hp
              dsimp only at hp ⊢
              rcases List.mem_cons.mp hp with hp1 | hp2
              · subst hp1
                exact ensureNoopOk_mono hext2 hnoopv'
              · exact ensureNoopOk_mono (vaultExtends_trans hextv' hext2)
                  (hinv p hp2)
            · refine Or.inr (Or.inr ⟨hd, ?_, ?_⟩)
              · refine Or.inl (Or.inr ⟨Entity.file e.data, ?_⟩)
                rw [hptc]
                exact lookupPath_prepend_self v' _ _
              · exact Or.inl (ensureNoopOk_mono hext2 hnoopv').1
          · unfold finishWrite
            dsimp only
            rw [hw]
            constructor
            · intro p hp
              dsimp only at hp ⊢
              rcases List.mem_cons.mp hp with hp1 | hp2
              · subst hp1
                exact hnoopv'
              · exact ensureNoopOk_mono hextv' (hinv p hp2)
            · refine Or.inr (Or.inr ⟨hd, ?_, ?_⟩)
              · refine Or.inl (Or.inr ⟨Entity.file b, ?_⟩)
                rw [hptc]
                exact hlkb
              · exact Or.inl hnoopv'.1
          · unfold finishWrite
            dsimp only
            rw [hw]
            constructor
            · intro p hp
              dsimp only at hp ⊢
              rcases List.mem_cons.mp hp with hp1 | hp2
              · subst hp1
                exact hnoopv'
              · exact ensureNoopOk_mono hextv' (hinv p hp2)
            · refine Or.inr (Or.inr ⟨hd, ?_, ?_⟩)
              · refine Or.inl (Or.inr ⟨Entity.folder, ?_⟩)
                rw [hptc]
                exact hlkf
              · exact Or.inl hnoopv'.1
        · rename_i v' heq
          rw [detOps_createFolder] at heq
          have hnone : (ensureFolderExists detCreateFolder st.vault
              (parentOf (destPathOf cleanTarget e))).2 = none := by
            rw [heq]
          have hv' : v' = st.vault := by
            have h := ensure_det_fail_vault hnone
            rw [heq] at h
            exact h
          subst hv'
          constructor
          · intro p hp
            dsimp only at hp ⊢
            exact hinv p hp
          · refine Or.inr (Or.inr ⟨hd, ?_, ?_⟩)
            · exact Or.inr ⟨hg.1, hg.2.1, hnone⟩
            · exact Or.inl (by simpa using ensure_det_fail_vault hnone)
      · rename_i hg
        have hpar : (ensureFolderExists detCreateFolder
            ((writeEntryFile detOps st.vault (destPathOf cleanTarget e)
              e.data).1) (parentOf (destPathOf cleanTarget e))).1 =
              (writeEntryFile detOps st.vault (destPathOf cleanTarget e)
                e.data).1 ∨
            parentOf (destPathOf cleanTarget e) = "" ∨
            parentOf (destPathOf cleanTarget e) = cleanTarget := by
          rcases not_and_or.mp hg with h1 | h23
          · refine Or.inr (Or.inl ?_)
            by_contra hc
            exact h1 hc
          · rcases not_and_or.mp h23 with h2 | h3
            · refine Or.inr (Or.inr ?_)
              by_contra hc
              exact h2 hc
            · have hmem : memStr (parentOf (destPathOf cleanTarget e))
                  st.created = true := by
                by_contra hm
                exact h3 (by simpa using hm)
              have hin := hinv _ ((memStr_true_iff _ _).mp hmem)
              have hwext : VaultExtends st.vault
                  (writeEntryFile detOps st.vault (destPathOf cleanTarget e)
                    e.data).1 :=
                writeEntryFile_det_extends st.vault _ e.data hptc hne
              exact Or.inl (ensureNoopOk_mono hwext hin).1
        rcases writeEntryFile_det_cases st.vault (destPathOf cleanTarget e)
            e.data hptc hne with ⟨hlkn, hw⟩ | ⟨⟨b, hlkb⟩, hw⟩ | ⟨hlkf, hw⟩
        · unfold finishWrite
          dsimp only
          rw [hw]
          rw [hw] at hpar
          have hext2 : VaultExtends st.vault ((destPathOf cleanTarget e,
              Entity.file e.data) :: st.vault) :=
            fun q x h => lookupPath_prepend_fresh _ hlkn h
          constructor
          · intro p hp
            dsimp only at hp ⊢
            exact ensureNoopOk_mono hext2 (hinv p hp)
          · refine Or.inr (Or.inr ⟨hd, ?_, ?_⟩)
            · refine Or.inl (Or.inr ⟨Entity.file e.data, ?_⟩)
              rw [hptc]
              exact lookupPath_prepend_self st.vault _ _
            · exact hpar
        · unfold finishWrite
          dsimp only
          rw [hw]
          rw [hw] at hpar
          constructor
          · intro p hp
            dsimp only at hp ⊢
            exact hinv p hp
          · refine Or.inr (Or.inr ⟨hd, ?_, ?_⟩)
            · refine Or.inl (Or.inr ⟨Entity.file b, ?_⟩)
              rw [hptc]
              exact hlkb
            · exact hpar
        · unfold finishWrite
          dsimp only
          rw [hw]
          rw [hw] at hpar
          constructor
          · intro p hp
            dsimp only at hp ⊢
            exact hinv p hp
          · refine Or.inr (Or.inr ⟨hd, ?_, ?_⟩)
            · refine Or.inl (Or.inr ⟨Entity.folder, ?_⟩)
              rw [hptc]
              exact hlkf
            · exact hpar

theorem saturated_mono {v v' : Vault} (hext : VaultExtends v v')
    {cleanTarget : String} {e : ZEntry}
    (h : Saturated cleanTarget v e) : Saturated cleanTarget v' e := by
  rcases h with h | ⟨hd, h2⟩ | ⟨hd, h1, h2⟩
  · exact Or.inl h
  · rcases h2 with h2 | h2
    · exact Or.inr (Or.inl ⟨hd, Or.inl h2⟩)
    · exact Or.inr (Or.inl ⟨hd, Or.inr (ensure_noop_mono hext h2)⟩)
  · refine Or.inr (Or.inr ⟨hd, ?_, ?_⟩)
    · rcases h1 with h1 | ⟨a, b2, c⟩
      · exact Or.inl (writerSettled_mono hext h1)
      · exact Or.inr ⟨a, b2, ensureFails_mono hext c⟩
    · rcases h2 with h2 | h2 | h2
      · exact Or.inl (ensure_noop_mono hext h2)
      · exact Or.inr (Or.inl h2)
      · exact Or.inr (Or.inr h2)

theorem runEntries_det_master (cleanTarget : String) (entries : List ZEntry)
    (st : RunState)
    (hsane : ∀ e ∈ entries, saneEntry cleanTarget e = true)
    (hinv : ∀ p ∈ st.created, EnsureNoopOk st.vault p) :
    (∀ p ∈ (runEntries detOps cleanTarget entries st).1.created,
      EnsureNoopOk (runEntries detOps cleanTarget entries st).1.vault p) ∧
    (∀ e ∈ entries, Saturated cleanTarget
      (runEntries detOps cleanTarget entries st).1.vault e) := by
  induction entries generalizing st with
  | nil =>
    simp only [runEntries]
    refine ⟨hinv, ?_⟩
    intro x hx
    exact absurd hx (List.not_mem_nil x)
  | cons e rest ih =>
    have hstep := processEntry_det_step cleanTarget st e
      (hsane e (List.mem_cons_self _ _)) hinv
    have hrest := ih (processEntry detOps cleanTarget st e).state
      (fun x hx => hsane x (List.mem_cons_of_mem _ hx)) hstep.1
    have hext2 : VaultExtends (processEntry detOps cleanTarget st e).state.vault
        (runEntries detOps cleanTarget rest
          (processEntry detOps cleanTarget st e).state).1.vault :=
      runEntries_det_extends cleanTarget rest _
        (fun x hx => hsane x (List.mem_cons_of_mem _ hx))
    simp only [runEntries]
    refine ⟨hrest.1, ?_⟩
    intro x hx
    rcases List.mem_cons.mp hx with h1 | h2
    · subst h1
      exact saturated_mono hext2 hstep.2
    · exact hrest.2 x h2

theorem processEntry_det_noop (cleanTarget : String) (st : RunState)
    (e : ZEntry) (hsane : saneEntry cleanTarget e = true)
    (hsat : Saturated cleanTarget st.vault e)
    (hinv2 : ∀ p ∈ st.created, EnsureNoopOk st.vault p) :
    (processEntry detOps cleanTarget st e).state.vault = st.vault ∧
    (processEntry detOps cleanTarget st e).state.fileCount = st.fileCount ∧
    (∀ p ∈ (processEntry detOps cleanTarget st e).state.created,
      EnsureNoopOk st.vault p) := by
  unfold processEntry
  dsimp only
  split
  · exact ⟨rfl, rfl, hinv2⟩
  · rename_i hig
    have hig' : isIgnored e.relativePath = false := by simpa using hig
    split
    · rename_i hdir
      have hsd : dirPathOf cleanTarget e = "" ∨
          (ensureFolderExists detCreateFolder st.vault
            (dirPathOf cleanTarget e)).1 = st.vault := by
        rcases hsat with h | ⟨-, h2⟩ | ⟨hdf, -, -⟩
        · rw [h] at hig'
          exact Bool.noConfusion hig'
        · exact h2
        · rw [hdir] at hdf
          exact Bool.noConfusion hdf
      split
      · rename_i hg
        have hnoop : (ensureFolderExists detCreateFolder st.vault
            (dirPathOf cleanTarget e)).1 = st.vault := by
          rcases hsd with h | h
          · exact absurd h hg.1
          · exact h
        split
        · rename_i v' val heq
          rw [detOps_createFolder] at heq
          have hv' : v' = st.vault := by
            rw [heq] at hnoop
            exact hnoop
          subst hv'
          refine ⟨rfl, rfl, ?_⟩
          intro p hp
          dsimp only at hp
          rcases List.mem_cons.mp hp with hp1 | hp2
          · subst hp1
            refine ⟨hnoop, ?_⟩
            rw [heq]
            rfl
          · exact hinv2 p hp2
        · rename_i v' heq
          rw [detOps_createFolder] at heq
          have hv' : v' = st.vault := by
            rw [heq] at hnoop
            exact hnoop
          subst hv'
          refine ⟨rfl, rfl, ?_⟩
          intro p hp
          dsimp only at hp
          exact hinv2 p hp
      · exact ⟨rfl, rfl, hinv2⟩
    · rename_i hdir
      have hd : e.dir = false := by
        cases hde : e.dir
        · rfl
        · exact absurd hde hdir
      have hnoslash : jsStartsWith (destPathOf cleanTarget e) "/" = false := by
        unfold saneEntry at hsane
        rw [hd] at hsane
        simpa using hsane
      have hptc := pathToCheckOf_of_not_slash hnoslash
      have hne : destPathOf cleanTarget e ≠ "" :=
        destPathOf_ne_empty cleanTarget e (rel_ne_empty_of_not_ignored hig')
      have hroot : destPathOf cleanTarget e ≠ "/" :=
        ndp_ne_root_of_not_slash hnoslash
      have hsf : (WriterSettled st.vault (destPathOf cleanTarget e) ∨
          (parentOf (destPathOf cleanTarget e) ≠ "" ∧
            parentOf (destPathOf cleanTarget e) ≠ cleanTarget ∧
            EnsureFails st.vault (parentOf (destPathOf cleanTarget e)))) ∧
          ((ensureFolderExists detCreateFolder st.vault
              (parentOf (destPathOf cleanTarget e))).1 = st.vault ∨
            parentOf (destPathOf cleanTarget e) = "" ∨
            parentOf (destPathOf cleanTarget e) = cleanTarget) := by
        rcases hsat with h | ⟨hdt, -⟩ | ⟨-, h1, h2⟩
        · rw [h] at hig'
          exact Bool.noConfusion hig'
        · rw [hd] at hdt
          exact Bool.noConfusion hdt
        · exact And.intro h1 h2
      split
      · rename_i hg
        split
        · rename_i v' val heq
          rw [detOps_createFolder] at heq
          have hnoop : (ensureFolderExists detCreateFolder st.vault
              (parentOf (destPathOf cleanTarget e))).1 = st.vault := by
            rcases hsf.2 with h | h | h
            · exact h
            · exact absurd h hg.1
            · exact absurd h hg.2.1
          have hv' : v' = st.vault := by
            rw [heq] at hnoop
            exact hnoop
          subst hv'
          have hset : WriterSettled st.vault (destPathOf cleanTarget e) := by
            rcases hsf.1 with h | ⟨-, -, hfail⟩
            · exact h
            · have hfail2 : (ensureFolderExists detCreateFolder st.vault
                  (parentOf (destPathOf cleanTarget e))).2 = none := hfail
              rw [heq] at hfail2
              exact Option.noConfusion hfail2
          have hsome : ∃ x, lookupPath st.vault (destPathOf cleanTarget e) =
              some x := by
            rcases hset with h | ⟨x, hx⟩
            · exact absurd h hroot
            · rw [hptc] at hx
              exact ⟨x, hx⟩
          rcases writeEntryFile_det_cases st.vault (destPathOf cleanTarget e)
              e.data hptc hne with ⟨hlkn, hw⟩ | ⟨⟨b, hlkb⟩, hw⟩ | ⟨hlkf, hw⟩
          · obtain ⟨x, hx⟩ := hsome
            rw [hlkn] at hx
            exact Option.noConfusion hx
          · unfold finishWrite
            dsimp only
            rw [hw]
            refine ⟨rfl, rfl, ?_⟩
            intro p hp
            dsimp only at hp
            rcases List.mem_cons.mp hp with hp1 | hp2
            · subst hp1
              refine ⟨hnoop, ?_⟩
              rw [heq]
              rfl
            · exact hinv2 p hp2
          · unfold finishWrite
            dsimp only
            rw [hw]
            refine ⟨rfl, rfl, ?_⟩
            intro p hp
            dsimp only at hp
            rcases List.mem_cons.mp hp with hp1 | hp2
            · subst hp1
              refine ⟨hnoop, ?_⟩
              rw [heq]
              rfl
            · exact hinv2 p hp2
        · rename_i v' heq
          rw [detOps_createFolder] at heq
          have hnone : (ensureFolderExists detCreateFolder st.vault
              (parentOf (destPathOf cleanTarget e))).2 = none := by
            rw [heq]
          have hv' : v' = st.vault := by
            have h := ensure_det_fail_vault hnone
            rw [heq] at h
            exact h
          subst hv'
          refine ⟨rfl, rfl, ?_⟩
          intro p hp
          dsimp only at hp
          exact hinv2 p hp
      · rename_i hg
        have hset : WriterSettled st.vault (destPathOf cleanTarget e) := by
          rcases hsf.1 with h | ⟨hp1, hp2, hfail⟩
          · exact h
          · have hmem : memStr (parentOf (destPathOf cleanTarget e))
                st.created = true := by
              by_contra hm
              exact hg ⟨hp1, hp2, by simpa using hm⟩
            have hin := hinv2 _ ((memStr_true_iff _ _).mp hmem)
            have hfail2 : (ensureFolderExists detCreateFolder st.vault
                (parentOf (destPathOf cleanTarget e))).2 = none := hfail
            have hin2 : ((ensureFolderExists detCreateFolder st.vault
                (parentOf (destPathOf cleanTarget e))).2).isSome = true := hin.2
            rw [hfail2] at hin2
            exact Bool.noConfusion hin2
        have hsome : ∃ x, lookupPath st.vault (destPathOf cleanTarget e) =
            some x := by
          rcases hset with h | ⟨x, hx⟩
          · exact absurd h hroot
          · rw [hptc] at hx
            exact ⟨x, hx⟩
        rcases writeEntryFile_det_cases st.vault (destPathOf cleanTarget e)
            e.data hptc hne with ⟨hlkn, hw⟩ | ⟨⟨b, hlkb⟩, hw⟩ | ⟨hlkf, hw⟩
        · obtain ⟨x, hx⟩ := hsome
          rw [hlkn] at hx
          exact Option.noConfusion hx
        · unfold finishWrite
          dsimp only
          rw [hw]
          exact ⟨rfl, rfl, hinv2⟩
        · unfold finishWrite
          dsimp only
          rw [hw]
          exact ⟨rfl, rfl, hinv2⟩

theorem runEntries_det_noop (cleanTarget : String) (entries : List ZEntry)
    (st : RunState)
    (hsane : ∀ e ∈ entries, saneEntry cleanTarget e = true)
    (hsat : ∀ e ∈ entries, Saturated cleanTarget st.vault e)
    (hinv2 : ∀ p ∈ st.created, EnsureNoopOk st.vault p) :
    (runEntries detOps cleanTarget entries st).1.vault = st.vault ∧
    (runEntries detOps cleanTarget entries st).1.fileCount = st.fileCount := by
  induction entries generalizing st with
  | nil => exact ⟨rfl, rfl⟩
  | cons e rest ih =>
    have hstep := processEntry_det_noop cleanTarget st e
      (hsane e (List.mem_cons_self _ _)) (hsat e (List.mem_cons_self _ _)) hinv2
    have hrest := ih (processEntry detOps cleanTarget st e).state
      (fun x hx => hsane x (List.mem_cons_of_mem _ hx))
      (by
        intro x hx
        rw [hstep.1]
        exact hsat x (List.mem_cons_of_mem _ hx))
      (by
        intro p hp
        rw [hstep.1]
        exact hstep.2.2 p hp)
    simp only [runEntries]
    constructor
    · rw [hrest.1, hstep.1]
    · rw [hrest.2, hstep.2.1]

/-- Claim C2: extraction is idempotent.  Re-running the same archive into the
tree produced by a first run leaves the tree identical and writes zero new
files, for any archive of relative entries (file destinations not starting
with a separator) and any starting tree. -/
theorem extraction_idempotent (cleanTarget : String) (entries : List ZEntry)
    (v : Vault)
    (hsane : ∀ e ∈ entries, saneEntry cleanTarget e = true) :
    (extractArchive detOps cleanTarget entries
      (extractArchive detOps cleanTarget entries v).1.vault).1.vault =
      (extractArchive detOps cleanTarget entries v).1.vault ∧
    (extractArchive detOps cleanTarget entries
      (extractArchive detOps cleanTarget entries v).1.vault).1.fileCount = 0 := by
  have hm := runEntries_det_master cleanTarget entries ⟨v, [], 0, []⟩ hsane
    (by
      intro p hp
      exact absurd hp (List.not_mem_nil p))
  have h2 := runEntries_det_noop cleanTarget entries
    ⟨(extractArchive detOps cleanTarget entries v).1.vault, [], 0, []⟩ hsane
    (by
      intro x hx
      exact hm.2 x hx)
    (by
      intro p hp
      exact absurd hp (List.not_mem_nil p))
  exact ⟨h2.1, h2.2⟩

/-- Witness for `extraction_idempotent`: a directory plus one file extracted
twice into an initially empty tree. -/
theorem extraction_idempotent_witness :
    (∀ e ∈ [(⟨"w1/", true, []⟩ : ZEntry), ⟨"w1/a.txt", false, [1, 2]⟩],
      saneEntry "" e = true) ∧
    ((extractArchive detOps ""
        [(⟨"w1/", true, []⟩ : ZEntry), ⟨"w1/a.txt", false, [1, 2]⟩]
        (extractArchive detOps ""
          [(⟨"w1/", true, []⟩ : ZEntry), ⟨"w1/a.txt", false, [1, 2]⟩]
          []).1.vault).1.vault =
      (extractArchive detOps ""
        [(⟨"w1/", true, []⟩ : ZEntry), ⟨"w1/a.txt", false, [1, 2]⟩]
        []).1.vault ∧
    (extractArchive detOps ""
        [(⟨"w1/", true, []⟩ : ZEntry), ⟨"w1/a.txt", false, [1, 2]⟩]
        (extractArchive detOps ""
          [(⟨"w1/", true, []⟩ : ZEntry), ⟨"w1/a.txt", false, [1, 2]⟩]
          []).1.vault).1.fileCount = 0) :=
  ⟨by decide,
    extraction_idempotent ""
      [(⟨"w1/", true, []⟩ : ZEntry), ⟨"w1/a.txt", false, [1, 2]⟩] []
      (by decide)⟩

theorem ensureNoopOk_char {v : Vault} {p : String} (h : EnsureNoopOk v p) :
    jsStripOuterSlashes p = "" ∨
      lookupPath v (jsStripOuterSlashes p) = some Entity.folder := by
  rcases (ensure_det_some_iff v p).mp h.2 with h1 | h1 | h1 | h1 | h1
  · subst h1
    left
    decide
  · subst h1
    left
    decide
  · exact Or.inl h1
  · exact Or.inr h1
  · rcases (ensure_det_noop_iff v p).mp h.1 with h2 | h2 | h2 | ⟨x, hx⟩
    · subst h2
      left
      decide
    · subst h2
      left
      decide
    · exact Or.inl h2
    · rw [h1] at hx
      exact Option.noConfusion hx

/-- Claim C9: the created-directory set invariant.  First: at the end of a
run, every recorded path is confirmed as a directory — its normalized form
is the root or is bound to a folder in the final tree.  Second: an entry
whose needed directory path is already in the set issues no further
`ensureFolderExists` call. -/
theorem created_set_invariant :
    (∀ (cleanTarget : String) (entries : List ZEntry) (v : Vault),
      (∀ e ∈ entries, saneEntry cleanTarget e = true) →
      ∀ p ∈ (extractArchive detOps cleanTarget entries v).1.created,
        jsStripOuterSlashes p = "" ∨
        lookupPath (extractArchive detOps cleanTarget entries v).1.vault
          (jsStripOuterSlashes p) = some Entity.folder) ∧
    (∀ (ops : FsOps) (cleanTarget : String) (st : RunState) (e : ZEntry),
      (e.dir = true → memStr (dirPathOf cleanTarget e) st.created = true) →
      (e.dir = false →
        memStr (parentOf (destPathOf cleanTarget e)) st.created = true) →
      (processEntry ops cleanTarget st e).ensureCalls = []) := by
  constructor
  · intro cleanTarget entries v hsane p hp
    have hm := runEntries_det_master cleanTarget entries ⟨v, [], 0, []⟩ hsane
      (by
        intro q hq
        exact absurd hq (List.not_mem_nil q))
    exact ensureNoopOk_char (hm.1 p hp)
  · intro ops cleanTarget st e hdirmem hfilemem
    unfold processEntry
    dsimp only
    split
    · rfl
    · split
      · rename_i hdir
        have hmem := hdirmem hdir
        split
        · rename_i hg
          rw [hmem] at hg
          simp at hg
        · rfl
      · rename_i hdir
        have hd : e.dir = false := by
          cases hde : e.dir
          · rfl
          · exact absurd hde hdir
        have hmem := hfilemem hd
        split
        · rename_i hg
          rw [hmem] at hg
          simp at hg
        · unfold finishWrite
          dsimp only
          rcases hw : writeEntryFile ops st.vault (destPathOf cleanTarget e)
              e.data with ⟨v'', wres⟩
          cases wres <;> rfl

/-- Witness for `created_set_invariant`: a concrete run populating the set
with `w1`, and a directory entry answered from the set with no ensure
call. -/
theorem created_set_invariant_witness :
    (∀ p ∈ (extractArchive detOps ""
        [(⟨"w1/", true, []⟩ : ZEntry), ⟨"w1/a.txt", false, [1, 2]⟩]
        []).1.created,
      jsStripOuterSlashes p = "" ∨
      lookupPath (extractArchive detOps ""
          [(⟨"w1/", true, []⟩ : ZEntry), ⟨"w1/a.txt", false, [1, 2]⟩]
          []).1.vault (jsStripOuterSlashes p) = some Entity.folder) ∧
    (processEntry detOps ""
      ⟨[("w1", Entity.folder)], ["w1"], 0, []⟩
      ⟨"w1/", true, []⟩).ensureCalls = [] :=
  ⟨created_set_invariant.1 ""
      [(⟨"w1/", true, []⟩ : ZEntry), ⟨"w1/a.txt", false, [1, 2]⟩] []
      (by decide),
    created_set_invariant.2 detOps ""
      ⟨[("w1", Entity.folder)], ["w1"], 0, []⟩
      ⟨"w1/", true, []⟩ (by decide) (by decide)⟩

theorem splitSlash_ne_nil (l : List Char) : splitSlash l ≠ [] := by
  cases l with
  | nil => simp [splitSlash]
  | cons c rest =>
    unfold splitSlash
    rcases splitSlash rest with _ | ⟨s, ss⟩
    · simp
    · by_cases hc : c = '/' <;> simp [hc]

theorem splitSlash_cons_eq (c : Char) (rest : List Char) (s : List Char)
    (ss : List (List Char)) (h : splitSlash rest = s :: ss) :
    splitSlash (c :: rest) = if c = '/' then [] :: s :: ss
      else (c :: s) :: ss := by
  simp only [splitSlash, h]

theorem mem_tail_mem {α : Type} {x : α} {l : List α} (h : x ∈ l.tail) :
    x ∈ l := by
  cases l with
  | nil => simp at h
  | cons a rest => exact List.mem_cons_of_mem a h

/-- Head segment survives `map toSlash` when it has no backslash. -/
theorem splitSlash_map_head (rest : List Char) (s : List Char)
    (ss : List (List Char)) (h : splitSlash rest = s :: ss)
    (hs : ∀ c ∈ s, c ≠ '\\') :
    ∃ ss', splitSlash (rest.map toSlash) = s :: ss' := by
  induction rest generalizing s ss with
  | nil =>
    simp only [splitSlash] at h
    obtain ⟨hs1, -⟩ := List.cons.inj h
    subst hs1
    exact ⟨[], rfl⟩
  | cons d r2 ih =>
    rcases hsp : splitSlash r2 with _ | ⟨s2, ss2⟩
    · exact absurd hsp (splitSlash_ne_nil r2)
    · rw [splitSlash_cons_eq d r2 s2 ss2 hsp] at h
      by_cases hd : d = '/'
      · rw [if_pos hd] at h
        obtain ⟨hs1, -⟩ := List.cons.inj h
        subst hs1
        subst hd
        rcases hsp' : splitSlash (r2.map toSlash) with _ | ⟨s2', ss2'⟩
        · exact absurd hsp' (splitSlash_ne_nil _)
        · refine ⟨s2' :: ss2', ?_⟩
          rw [List.map_cons]
          rw [splitSlash_cons_eq _ _ s2' ss2' hsp']
          simp [toSlash]
      · rw [if_neg hd] at h
        obtain ⟨hs1, -⟩ := List.cons.inj h
        subst hs1
        have hdns : d ≠ '\\' := hs d (List.mem_cons_self d s2)
        have hs2 : ∀ c ∈ s2, c ≠ '\\' := fun c hc =>
          hs c (List.mem_cons_of_mem d hc)
        obtain ⟨ss2', hss'⟩ := ih s2 ss2 hsp hs2
        have htd : toSlash d = d := by simp [toSlash, hdns]
        refine ⟨ss2', ?_⟩
        rw [List.map_cons,
          splitSlash_cons_eq (toSlash d) (r2.map toSlash) s2 ss2' hss',
          htd, if_neg hd]

/-- Segment membership survives `map toSlash` for segments without slash or
backslash characters, both as plain membership and within the tail. -/
theorem splitSlash_map_mem (rest : List Char) :
    (∀ seg, seg ≠ [] → (∀ c ∈ seg, c ≠ '/' ∧ c ≠ '\\') →
      seg ∈ splitSlash rest → seg ∈ splitSlash (rest.map toSlash)) ∧
    (∀ seg, seg ≠ [] → (∀ c ∈ seg, c ≠ '/' ∧ c ≠ '\\') →
      seg ∈ (splitSlash rest).tail →
      seg ∈ (splitSlash (rest.map toSlash)).tail) := by
  induction rest with
  | nil =>
    constructor
    · intro seg hne hgood hmem
      simp [splitSlash] at hmem
      exact absurd hmem hne
    · intro seg hne hgood hmem
      simp [splitSlash] at hmem
  | cons d r2 ih =>
    rcases hsp : splitSlash r2 with _ | ⟨s2, ss2⟩
    · exact absurd hsp (splitSlash_ne_nil r2)
    rcases hsp' : splitSlash (r2.map toSlash) with _ | ⟨s2', ss2'⟩
    · exact absurd hsp' (splitSlash_ne_nil _)
    have hcons := splitSlash_cons_eq d r2 s2 ss2 hsp
    have hcons' := splitSlash_cons_eq (toSlash d) (r2.map toSlash) s2' ss2' hsp'
    constructor
    · intro seg hne hgood hmem
      rw [hcons] at hmem
      rw [List.map_cons, hcons']
      by_cases hd : d = '/'
      · rw [if_pos hd] at hmem
        have htd : toSlash d = '/' := by simp [toSlash, hd]
        rw [if_pos htd]
        rcases List.mem_cons.mp hmem with h1 | h2
        · exact absurd h1 hne
        · have := (ih.1 seg hne hgood (by rw [hsp]; exact h2))
          rw [hsp'] at this
          exact List.mem_cons_of_mem _ this
      · rw [if_neg hd] at hmem
        rcases List.mem_cons.mp hmem with h1 | h2
        · subst h1
          have hdg := hgood d (List.mem_cons_self d s2)
          have htd : toSlash d = d := by simp [toSlash, hdg.2]
          rw [htd, if_neg hd]
          have hs2nb : ∀ c ∈ s2, c ≠ '\\' := fun c hc =>
            (hgood c (List.mem_cons_of_mem d hc)).2
          obtain ⟨ssx, hssx⟩ := splitSlash_map_head r2 s2 ss2 hsp hs2nb
          rw [hsp'] at hssx
          obtain ⟨h1, h2⟩ := List.cons.inj hssx
          subst h1
          exact List.mem_cons_self _ _
        · have htl := ih.2 seg hne hgood (by rw [hsp]; exact h2)
          rw [hsp'] at htl
          simp only [List.tail_cons] at htl
          by_cases htd : toSlash d = '/'
          · rw [if_pos htd]
            exact List.mem_cons_of_mem _ (List.mem_cons_of_mem _ htl)
          · rw [if_neg htd]
            exact List.mem_cons_of_mem _ htl
    · intro seg hne hgood hmem
      rw [hcons] at hmem
      rw [List.map_cons, hcons']
      by_cases hd : d = '/'
      · rw [if_pos hd] at hmem
        simp only [List.tail_cons] at hmem
        have htd : toSlash d = '/' := by simp [toSlash, hd]
        rw [if_pos htd]
        simp only [List.tail_cons]
        have := ih.1 seg hne hgood (by rw [hsp]; exact hmem)
        rw [hsp'] at this
        exact this
      · rw [if_neg hd] at hmem
        simp only [List.tail_cons] at hmem
        have htl := ih.2 seg hne hgood (by rw [hsp]; exact hmem)
        rw [hsp'] at htl
        simp only [List.tail_cons] at htl
        by_cases htd : toSlash d = '/'
        · rw [if_pos htd]
          simp only [List.tail_cons]
          exact List.mem_cons_of_mem _ htl
        · rw [if_neg htd]
          simp only [List.tail_cons]
          exact htl

/-- Head segment survives slash collapsing when it has no slash. -/
theorem splitSlash_collapse_head (rest : List Char) (s : List Char)
    (ss : List (List Char)) (h : splitSlash rest = s :: ss)
    (hs : ∀ c ∈ s, c ≠ '/') :
    ∃ ss', splitSlash (collapseAux false rest) = s :: ss' := by
  induction rest generalizing s ss with
  | nil =>
    simp only [splitSlash] at h
    obtain ⟨hs1, -⟩ := List.cons.inj h
    subst hs1
    exact ⟨[], rfl⟩
  | cons d r2 ih =>
    rcases hsp : splitSlash r2 with _ | ⟨s2, ss2⟩
    · exact absurd hsp (splitSlash_ne_nil r2)
    rw [splitSlash_cons_eq d r2 s2 ss2 hsp] at h
    by_cases hd : d = '/'
    · rw [if_pos hd] at h
      obtain ⟨hs1, -⟩ := List.cons.inj h
      subst hs1
      subst hd
      rcases hsp' : splitSlash (collapseAux true r2) with _ | ⟨s3, ss3⟩
      · exact absurd hsp' (splitSlash_ne_nil _)
      refine ⟨s3 :: ss3, ?_⟩
      show splitSlash (collapseAux false ('/' :: r2)) = [] :: s3 :: ss3
      have hcoll : collapseAux false ('/' :: r2) = '/' :: collapseAux true r2 := by
        simp [collapseAux]
      rw [hcoll, splitSlash_cons_eq _ _ s3 ss3 hsp']
      simp
    · rw [if_neg hd] at h
      obtain ⟨hs1, -⟩ := List.cons.inj h
      subst hs1
      have hs2 : ∀ c ∈ s2, c ≠ '/' := fun c hc =>
        hs c (List.mem_cons_of_mem d hc)
      obtain ⟨ss2', hss'⟩ := ih s2 ss2 hsp hs2
      refine ⟨ss2', ?_⟩
      have hcoll : collapseAux false (d :: r2) = d :: collapseAux false r2 := by
        simp [collapseAux, hd]
      rw [hcoll, splitSlash_cons_eq d _ s2 ss2' hss', if_neg hd]

/-- Segment membership survives slash collapsing for segments without
slashes, both as plain membership and (for the initial state) within the
tail. -/
theorem splitSlash_collapse_mem (rest : List Char) :
    (∀ b seg, seg ≠ [] → (∀ c ∈ seg, c ≠ '/') →
      seg ∈ splitSlash rest → seg ∈ splitSlash (collapseAux b rest)) ∧
    (∀ seg, seg ≠ [] → (∀ c ∈ seg, c ≠ '/') →
      seg ∈ (splitSlash rest).tail →
      seg ∈ (splitSlash (collapseAux false rest)).tail) := by
  induction rest with
  | nil =>
    constructor
    · intro b seg hne hgood hmem
      simp [splitSlash] at hmem
      exact absurd hmem hne
    · intro seg hne hgood hmem
      simp [splitSlash] at hmem
  | cons d r2 ih =>
    rcases hsp : splitSlash r2 with _ | ⟨s2, ss2⟩
    · exact absurd hsp (splitSlash_ne_nil r2)
    have hcons := splitSlash_cons_eq d r2 s2 ss2 hsp
    constructor
    · intro b seg hne hgood hmem
      rw [hcons] at hmem
      by_cases hd : d = '/'
      · rw [if_pos hd] at hmem
        have hmem2 : seg ∈ splitSlash r2 := by
          rw [hsp]
          rcases List.mem_cons.mp hmem with h1 | h2
          · exact absurd h1 hne
          · exact h2
        have hrec := ih.1 true seg hne hgood hmem2
        subst hd
        cases b with
        | true =>
          have hcoll : collapseAux true ('/' :: r2) = collapseAux true r2 := by
            simp [collapseAux]
          rw [hcoll]
          exact hrec
        | false =>
          have hcoll : collapseAux false ('/' :: r2) =
              '/' :: collapseAux true r2 := by
            simp [collapseAux]
          rw [hcoll]
          rcases hsp3 : splitSlash (collapseAux true r2) with _ | ⟨s3, ss3⟩
          · exact absurd hsp3 (splitSlash_ne_nil _)
          rw [splitSlash_cons_eq _ _ s3 ss3 hsp3]
          simp only [if_pos rfl]
          rw [hsp3] at hrec
          exact List.mem_cons_of_mem _ hrec
      · have hcoll : collapseAux b (d :: r2) = d :: collapseAux false r2 := by
          cases b <;> simp [collapseAux, hd]
        rw [if_neg hd] at hmem
        rw [hcoll]
        rcases hsp3 : splitSlash (collapseAux false r2) with _ | ⟨s3, ss3⟩
        · exact absurd hsp3 (splitSlash_ne_nil _)
        rw [splitSlash_cons_eq d _ s3 ss3 hsp3, if_neg hd]
        rcases List.mem_cons.mp hmem with h1 | h2
        · subst h1
          have hs2 : ∀ c ∈ s2, c ≠ '/' := fun c hc =>
            hgood c (List.mem_cons_of_mem d hc)
          obtain ⟨ssx, hssx⟩ := splitSlash_collapse_head r2 s2 ss2 hsp hs2
          rw [hsp3] at hssx
          obtain ⟨h1, -⟩ := List.cons.inj hssx
          subst h1
          exact List.mem_cons_self _ _
        · have htl := ih.2 seg hne hgood (by rw [hsp]; exact h2)
          rw [hsp3] at htl
          simp only [List.tail_cons] at htl
          exact List.mem_cons_of_mem _ htl
    · intro seg hne hgood hmem
      rw [hcons] at hmem
      by_cases hd : d = '/'
      · rw [if_pos hd] at hmem
        simp only [List.tail_cons] at hmem
        have hmem2 : seg ∈ splitSlash r2 := by
          rw [hsp]
          exact hmem
        have hrec := ih.1 true seg hne hgood hmem2
        subst hd
        have hcoll : collapseAux false ('/' :: r2) =
            '/' :: collapseAux true r2 := by
          simp [collapseAux]
        rw [hcoll]
        rcases hsp3 : splitSlash (collapseAux true r2) with _ | ⟨s3, ss3⟩
        · exact absurd hsp3 (splitSlash_ne_nil _)
        rw [splitSlash_cons_eq _ _ s3 ss3 hsp3]
        simp only [if_pos rfl, List.tail_cons]
        rw [hsp3] at hrec
        exact hrec
      · rw [if_neg hd] at hmem
        simp only [List.tail_cons] at hmem
        have hcoll : collapseAux false (d :: r2) =
            d :: collapseAux false r2 := by
          simp [collapseAux, hd]
        rw [hcoll]
        rcases hsp3 : splitSlash (collapseAux false r2) with _ | ⟨s3, ss3⟩
        · exact absurd hsp3 (splitSlash_ne_nil _)
        rw [splitSlash_cons_eq d _ s3 ss3 hsp3, if_neg hd]
        simp only [List.tail_cons]
        have htl := ih.2 seg hne hgood (by rw [hsp]; exact hmem)
        rw [hsp3] at htl
        simp only [List.tail_cons] at htl
        exact htl

/-- A segment of `l₂` is a segment of `l₁ ++ '/' :: l₂`. -/
theorem splitSlash_append_mem (l₁ l₂ : List Char) (seg : List Char)
    (h : seg ∈ splitSlash l₂) :
    seg ∈ (splitSlash (l₁ ++ '/' :: l₂)).tail := by
  induction l₁ with
  | nil =>
    rcases hsp : splitSlash l₂ with _ | ⟨s2, ss2⟩
    · exact absurd hsp (splitSlash_ne_nil l₂)
    simp only [List.nil_append]
    rw [splitSlash_cons_eq _ _ s2 ss2 hsp]
    simp only [if_pos rfl, List.tail_cons]
    rw [hsp] at h
    exact h
  | cons c l1 ih =>
    rcases hsp : splitSlash (l1 ++ '/' :: l₂) with _ | ⟨s2, ss2⟩
    · exact absurd hsp (splitSlash_ne_nil _)
    simp only [List.cons_append]
    rw [splitSlash_cons_eq c _ s2 ss2 hsp]
    rw [hsp] at ih
    simp only [List.tail_cons] at ih
    by_cases hc : c = '/'
    · rw [if_pos hc]
      simp only [List.tail_cons]
      exact mem_tail_mem ih
    · rw [if_neg hc]
      simp only [List.tail_cons]
      exact ih

/-- Claim C1 (amended): the resolver performs only separator normalization
and never rejects or neutralizes `..`: every parent-traversal segment of an
entry path survives verbatim into the resolved destination, which can
therefore denote a location outside the target subtree. -/
theorem resolver_preserves_traversal (target rel : String)
    (h : hasTraversalSeg rel = true) :
    hasTraversalSeg (resolveDest target rel) = true := by
  have hmem : ['.', '.'] ∈ splitSlash rel.data := by
    unfold hasTraversalSeg hasSeg at h
    exact of_decide_eq_true h
  have hne : (['.', '.'] : List Char) ≠ [] := by decide
  have hgood : ∀ c ∈ (['.', '.'] : List Char), c ≠ '/' ∧ c ≠ '\\' := by decide
  have hgood2 : ∀ c ∈ (['.', '.'] : List Char), c ≠ '/' :=
    fun c hc => (hgood c hc).1
  have h1 := (splitSlash_map_mem rel.data).1 ['.', '.'] hne hgood hmem
  unfold hasTraversalSeg hasSeg
  apply decide_eq_true
  unfold resolveDest jsNormalizeSeps collapseSlashes
  by_cases hct : target ≠ ""
  · rw [if_pos hct]
    show ['.', '.'] ∈ splitSlash
      (collapseAux false ((target ++ "/" ++ rel).data.map toSlash))
    have hdata : (target ++ "/" ++ rel).data =
        target.data ++ '/' :: rel.data := by
      rw [string_append_data, string_append_data]
      have hslash : ("/" : String).data = ['/'] := rfl
      rw [hslash, List.append_assoc]
      rfl
    rw [hdata, List.map_append]
    have hmap : List.map toSlash ('/' :: rel.data) =
        '/' :: List.map toSlash rel.data := by
      simp only [List.map_cons]
      have : toSlash '/' = '/' := by decide
      rw [this]
    rw [hmap]
    have h2 := splitSlash_append_mem (target.data.map toSlash)
      (rel.data.map toSlash) ['.', '.'] h1
    exact (splitSlash_collapse_mem _).1 false ['.', '.'] hne hgood2
      (mem_tail_mem h2)
  · rw [if_neg hct]
    show ['.', '.'] ∈ splitSlash (collapseAux false (rel.data.map toSlash))
    exact (splitSlash_collapse_mem _).1 false ['.', '.'] hne hgood2 h1

/-- Witness for `resolver_preserves_traversal` at the spec's own example
entry and target. -/
theorem resolver_preserves_traversal_witness :
    hasTraversalSeg "../../escape.txt" = true ∧
    hasTraversalSeg (resolveDest "Course Modules" "../../escape.txt") = true :=
  ⟨by decide,
    resolver_preserves_traversal "Course Modules" "../../escape.txt"
      (by decide)⟩
